import Mathlib

/-!
Shallow embedding of the limit order matching engine
(`src/services/engine/engine/src/{order_book,wal,main}.rs`).

The per-symbol book (`OrderBook` in `order_book.rs`) keeps both sides as
`BTreeMap<i64, VecDeque<RestingOrder>>`.  We model each side as an
association list of price levels kept in ascending-price order (the
`BTreeMap` iteration order); a level is a price together with the FIFO
queue of resting orders at that price.
-/

namespace Engine

/-- `Side` from `order_book.rs`. -/
inductive Side where
  | Buy
  | Sell
deriving DecidableEq, Repr

/-- `Order` from `order_book.rs`: the incoming (taker) order. -/
structure Order where
  seq : Nat
  side : Side
  price : Int
  qty : Int
  client_order_id : String
deriving DecidableEq, Repr

/-- `RestingOrder` from `order_book.rs`: what the book stores. -/
structure RestingOrder where
  seq : Nat
  side : Side
  price : Int
  remaining_qty : Int
  client_order_id : String
deriving DecidableEq, Repr

/-- `impl From<Order> for RestingOrder` in `order_book.rs`. -/
def RestingOrder.ofOrder (o : Order) : RestingOrder :=
  { seq := o.seq
    side := o.side
    price := o.price
    remaining_qty := o.qty
    client_order_id := o.client_order_id }

/-- `Fill` from `order_book.rs`. -/
structure Fill where
  maker_seq : Nat
  taker_seq : Nat
  price : Int
  qty : Int
deriving DecidableEq, Repr

/-- One price level of a book side: the price key and the FIFO queue
(front of the `VecDeque` = head of the list). -/
abbrev Level := Int × List RestingOrder

/-- `OrderBook` from `order_book.rs`.  Both sides are kept in
ascending-price order, mirroring `BTreeMap` iteration order. -/
structure OrderBook where
  bids : List Level
  asks : List Level
deriving DecidableEq, Repr

/-- `OrderBook::new` / `Default`. -/
def OrderBook.empty : OrderBook := ⟨[], []⟩

/-- The inner loop of `OrderBook::add`: consume the FIFO queue `q` at
level price `levelPrice` front-first.  Returns the fills emitted at this
level, the taker quantity still unfilled, and what is left of the queue.
Mirrors the `while remaining > 0` loop over `q.front_mut()` in
`order_book.rs`, including the defensive discard of a front entry with
non-positive `remaining_qty`. -/
def matchQueue (takerSeq : Nat) (levelPrice : Int) :
    Int → List RestingOrder → List Fill × Int × List RestingOrder
  | remaining, [] => ([], remaining, [])
  | remaining, front :: rest =>
    if remaining ≤ 0 then ([], remaining, front :: rest)
    else if front.remaining_qty ≤ 0 then
      -- defensive: remove corrupt maker and continue
      matchQueue takerSeq levelPrice remaining rest
    else
      let traded := min remaining front.remaining_qty
      let fill : Fill :=
        { maker_seq := front.seq
          taker_seq := takerSeq
          price := levelPrice
          qty := traded }
      if front.remaining_qty ≤ remaining then
        -- front fully consumed: pop it and keep matching
        let r := matchQueue takerSeq levelPrice (remaining - traded) rest
        (fill :: r.1, r.2.1, r.2.2)
      else
        -- front only partially consumed: taker is exhausted
        ([fill], 0,
          { front with remaining_qty := front.remaining_qty - traded } :: rest)

/-- The outer loop of `OrderBook::add`: sweep the opposing side's levels
best-first.  `levels` is the side in best-price-first order; `crosses p`
is the price-crossing test (`p ≤ order.price` for a Buy sweeping asks,
`order.price ≤ p` for a Sell sweeping bids).  A level whose queue empties
is removed, mirroring `self.asks.remove(&best_ask_price)`. -/
def sweep (crosses : Int → Bool) (takerSeq : Nat) :
    Int → List Level → List Fill × Int × List Level
  | remaining, [] => ([], remaining, [])
  | remaining, (p, q) :: rest =>
    if remaining ≤ 0 then ([], remaining, (p, q) :: rest)
    else if ¬ crosses p then ([], remaining, (p, q) :: rest)
    else
      let r := matchQueue takerSeq p remaining q
      if r.2.2.isEmpty then
        let r2 := sweep crosses takerSeq r.2.1 rest
        (r.1 ++ r2.1, r2.2.1, r2.2.2)
      else
        (r.1, r.2.1, (p, r.2.2) :: rest)

/-- `BTreeMap::entry(price).or_insert_with(VecDeque::new).push_back(ro)`
on a side kept in ascending-price order. -/
def insertLevel (price : Int) (ro : RestingOrder) : List Level → List Level
  | [] => [(price, [ro])]
  | (p, q) :: rest =>
    if price < p then (price, [ro]) :: (p, q) :: rest
    else if price = p then (p, q ++ [ro]) :: rest
    else (p, q) :: insertLevel price ro rest

/-- Body of `OrderBook::add`, additionally exposing the taker quantity
left unmatched (the `remaining` local of the Rust function, which is the
`remaining_qty` of the resting order created when positive). -/
def addCore (book : OrderBook) (o : Order) : List Fill × Int × OrderBook :=
  if o.qty ≤ 0 then ([], 0, book)
  else if o.price < 0 then ([], 0, book)
  else
    match o.side with
    | Side.Buy =>
      -- BUY crosses if `order.price ≥ best_ask`; asks are already ascending.
      let r := sweep (fun p => decide (p ≤ o.price)) o.seq o.qty book.asks
      let bids' :=
        if 0 < r.2.1 then
          insertLevel o.price
            { seq := o.seq, side := o.side, price := o.price
              remaining_qty := r.2.1, client_order_id := o.client_order_id }
            book.bids
        else book.bids
      (r.1, r.2.1, ⟨bids', r.2.2⟩)
    | Side.Sell =>
      -- SELL crosses if `order.price ≤ best_bid`; sweep bids from the
      -- greatest price downward, i.e. over the reversed ascending list.
      let r := sweep (fun p => decide (o.price ≤ p)) o.seq o.qty book.bids.reverse
      let asks' :=
        if 0 < r.2.1 then
          insertLevel o.price
            { seq := o.seq, side := o.side, price := o.price
              remaining_qty := r.2.1, client_order_id := o.client_order_id }
            book.asks
        else book.asks
      (r.1, r.2.1, ⟨r.2.2.reverse, asks'⟩)

/-- `OrderBook::add` from `order_book.rs`: returns the fills and the
updated book. -/
def OrderBook.add (book : OrderBook) (o : Order) : List Fill × OrderBook :=
  ((addCore book o).1, (addCore book o).2.2)

/-- `OrderBook::top_of_book` from `order_book.rs`. -/
def OrderBook.top_of_book (b : OrderBook) : Int × Int × Int × Int :=
  let bid :=
    match b.bids.getLast? with
    | some (p, q) => (p, (q.map (fun ro : RestingOrder => ro.remaining_qty)).sum)
    | none => (0, 0)
  let ask :=
    match b.asks.head? with
    | some (p, q) => (p, (q.map (fun ro : RestingOrder => ro.remaining_qty)).sum)
    | none => (0, 0)
  (bid.1, bid.2, ask.1, ask.2)

/-- Sum of the `qty` fields of a list of fills. -/
def sumQty (fs : List Fill) : Int := (fs.map Fill.qty).sum

/-- Lookup of the queue stored at price `p` on one side. -/
def findLevel? (p : Int) : List Level → Option (List RestingOrder)
  | [] => none
  | (a, q) :: rest => if a = p then some q else findLevel? p rest

/-- The side of the book on which an order of the given side rests. -/
def sideLevels (b : OrderBook) : Side → List Level
  | Side.Buy => b.bids
  | Side.Sell => b.asks

theorem matchQueue_conservation (ts : Nat) (p : Int) (rem : Int)
    (q : List RestingOrder) :
    sumQty (matchQueue ts p rem q).1 + (matchQueue ts p rem q).2.1 = rem := by
  induction q generalizing rem with
  | nil => simp [matchQueue, sumQty]
  | cons front rest ih =>
    by_cases h1 : rem ≤ 0
    · simp [matchQueue, h1, sumQty]
    · by_cases h2 : front.remaining_qty ≤ 0
      · simpa [matchQueue, h1, h2] using ih rem
      · by_cases h3 : front.remaining_qty ≤ rem
        · have hmin : min rem front.remaining_qty = front.remaining_qty :=
            min_eq_right h3
          have := ih (rem - min rem front.remaining_qty)
          simp [matchQueue, h1, h2, h3, sumQty, hmin] at this ⊢
          omega
        · have hmin : min rem front.remaining_qty = rem :=
            min_eq_left (by omega)
          simp [matchQueue, h1, h2, h3, sumQty, hmin]

theorem matchQueue_rem_nonneg (ts : Nat) (p : Int) (rem : Int)
    (q : List RestingOrder) (h : 0 ≤ rem) :
    0 ≤ (matchQueue ts p rem q).2.1 := by
  induction q generalizing rem with
  | nil => simpa [matchQueue]
  | cons front rest ih =>
    by_cases h1 : rem ≤ 0
    · simpa [matchQueue, h1]
    · by_cases h2 : front.remaining_qty ≤ 0
      · simpa [matchQueue, h1, h2] using ih rem h
      · by_cases h3 : front.remaining_qty ≤ rem
        · have := ih (rem - min rem front.remaining_qty) (by omega)
          simpa [matchQueue, h1, h2, h3] using this
        · simp [matchQueue, h1, h2, h3]

theorem sweep_conservation (c : Int → Bool) (ts : Nat) (rem : Int)
    (ls : List Level) :
    sumQty (sweep c ts rem ls).1 + (sweep c ts rem ls).2.1 = rem := by
  induction ls generalizing rem with
  | nil => simp [sweep, sumQty]
  | cons l rest ih =>
    obtain ⟨p, q⟩ := l
    by_cases h1 : rem ≤ 0
    · simp [sweep, h1, sumQty]
    · by_cases h2 : c p
      · have hmq := matchQueue_conservation ts p rem q
        by_cases h3 : (matchQueue ts p rem q).2.2.isEmpty
        · have := ih (matchQueue ts p rem q).2.1
          simp only [sweep, if_neg h1, h2, not_true_eq_false, if_false, if_pos h3,
            sumQty, List.map_append, List.sum_append] at this ⊢
          simp only [sumQty] at hmq
          omega
        · simpa [sweep, h1, h2, h3] using hmq
      · simp [sweep, h1, h2, sumQty]

theorem sweep_rem_nonneg (c : Int → Bool) (ts : Nat) (rem : Int)
    (ls : List Level) (h : 0 ≤ rem) :
    0 ≤ (sweep c ts rem ls).2.1 := by
  induction ls generalizing rem with
  | nil => simpa [sweep]
  | cons l rest ih =>
    obtain ⟨p, q⟩ := l
    by_cases h1 : rem ≤ 0
    · simpa [sweep, h1]
    · by_cases h2 : c p
      · by_cases h3 : (matchQueue ts p rem q).2.2.isEmpty
        · have := ih (matchQueue ts p rem q).2.1
            (matchQueue_rem_nonneg ts p rem q h)
          simpa [sweep, h1, h2, h3] using this
        · simpa [sweep, h1, h2, h3] using matchQueue_rem_nonneg ts p rem q h
      · simpa [sweep, h1, h2]

theorem insertLevel_findLevel (p : Int) (ro : RestingOrder) (ls : List Level) :
    ∃ pre, findLevel? p (insertLevel p ro ls) = some (pre ++ [ro]) := by
  induction ls with
  | nil => exact ⟨[], by simp [insertLevel, findLevel?]⟩
  | cons l rest ih =>
    obtain ⟨a, q⟩ := l
    by_cases h1 : p < a
    · exact ⟨[], by simp [insertLevel, findLevel?, h1]⟩
    · by_cases h2 : p = a
      · exact ⟨q, by simp [insertLevel, findLevel?, h1, h2]⟩
      · obtain ⟨pre, hpre⟩ := ih
        refine ⟨pre, ?_⟩
        have : a ≠ p := fun h => h2 h.symm
        simp [insertLevel, findLevel?, h1, h2, this, hpre]

/-- C2: for every order with `qty > 0` and `price ≥ 0` and every book
state, `OrderBook.add` returns fills whose quantities, plus the taker
quantity left unmatched (the `remaining_qty` of the resting order the
call creates, `0` when nothing rests), sum to the order's `qty`.  The
unmatched quantity is non-negative, and when positive the call appends a
resting order carrying exactly that quantity at the back of the level at
the order's limit price on the order's side. -/
theorem conservation_of_quantity (b : OrderBook) (o : Order)
    (hq : 0 < o.qty) (hp : 0 ≤ o.price) :
    sumQty (OrderBook.add b o).1 + (addCore b o).2.1 = o.qty
    ∧ 0 ≤ (addCore b o).2.1
    ∧ (0 < (addCore b o).2.1 →
        ∃ pre, findLevel? o.price (sideLevels (OrderBook.add b o).2 o.side) =
          some (pre ++ [{ seq := o.seq, side := o.side, price := o.price
                          remaining_qty := (addCore b o).2.1
                          client_order_id := o.client_order_id }])) := by
  have hq' : ¬ o.qty ≤ 0 := by omega
  have hp' : ¬ o.price < 0 := by omega
  cases hside : o.side with
  | Buy =>
    have hc := sweep_conservation (fun p => decide (p ≤ o.price)) o.seq o.qty b.asks
    have hn := sweep_rem_nonneg (fun p => decide (p ≤ o.price)) o.seq o.qty b.asks
      (by omega)
    refine ⟨?_, ?_, ?_⟩
    · simpa [OrderBook.add, addCore, hq', hp', hside] using hc
    · simpa [addCore, hq', hp', hside] using hn
    · intro hpos
      simp only [OrderBook.add, addCore, hside, if_neg hq', if_neg hp',
        sideLevels] at hpos ⊢
      rw [if_pos hpos]
      exact insertLevel_findLevel o.price _ b.bids
  | Sell =>
    have hc := sweep_conservation (fun p => decide (o.price ≤ p)) o.seq o.qty
      b.bids.reverse
    have hn := sweep_rem_nonneg (fun p => decide (o.price ≤ p)) o.seq o.qty
      b.bids.reverse (by omega)
    refine ⟨?_, ?_, ?_⟩
    · simpa [OrderBook.add, addCore, hq', hp', hside] using hc
    · simpa [addCore, hq', hp', hside] using hn
    · intro hpos
      simp only [OrderBook.add, addCore, hside, if_neg hq', if_neg hp',
        sideLevels] at hpos ⊢
      rw [if_pos hpos]
      exact insertLevel_findLevel o.price _ b.asks

/-- Witness for C2 at a concrete input: a book with one resting ask of
quantity 2 at 101 and a Buy taker for 5 at 101; one fill of 2 plus a
rested remainder of 3 accounts for the full quantity. -/
theorem conservation_of_quantity_witness :
    (0:Int) < 5 ∧
    sumQty (OrderBook.add ⟨[], [(101, [⟨1, Side.Sell, 101, 2, "a"⟩])]⟩
      ⟨2, Side.Buy, 101, 5, "b"⟩).1 +
      (addCore ⟨[], [(101, [⟨1, Side.Sell, 101, 2, "a"⟩])]⟩
        ⟨2, Side.Buy, 101, 5, "b"⟩).2.1 = 5 :=
  ⟨by decide,
    (conservation_of_quantity ⟨[], [(101, [⟨1, Side.Sell, 101, 2, "a"⟩])]⟩
      ⟨2, Side.Buy, 101, 5, "b"⟩ (by decide) (by decide)).1⟩

/-- The side of the book a taker of the given side matches against. -/
def oppositeLevels (b : OrderBook) : Side → List Level
  | Side.Buy => b.asks
  | Side.Sell => b.bids

theorem matchQueue_fills (ts : Nat) (p : Int) (rem : Int)
    (q : List RestingOrder) :
    ∀ f ∈ (matchQueue ts p rem q).1,
      f.price = p ∧ f.taker_seq = ts ∧ ∃ ro ∈ q, f.maker_seq = ro.seq := by
  induction q generalizing rem with
  | nil => simp [matchQueue]
  | cons front rest ih =>
    intro f hf
    by_cases h1 : rem ≤ 0
    · simp [matchQueue, h1] at hf
    · by_cases h2 : front.remaining_qty ≤ 0
      · simp only [matchQueue, if_neg h1, if_pos h2] at hf
        obtain ⟨hp, hts, ro, hro, hseq⟩ := ih rem f hf
        exact ⟨hp, hts, ro, List.mem_cons_of_mem _ hro, hseq⟩
      · by_cases h3 : front.remaining_qty ≤ rem
        · simp only [matchQueue, if_neg h1, if_neg h2, if_pos h3,
            List.mem_cons] at hf
          rcases hf with rfl | hf
          · exact ⟨rfl, rfl, front, List.mem_cons_self _ _, rfl⟩
          · obtain ⟨hp, hts, ro, hro, hseq⟩ := ih _ f hf
            exact ⟨hp, hts, ro, List.mem_cons_of_mem _ hro, hseq⟩
        · simp only [matchQueue, if_neg h1, if_neg h2, if_neg h3,
            List.mem_cons, List.not_mem_nil, or_false] at hf
          subst hf
          exact ⟨rfl, rfl, front, List.mem_cons_self _ _, rfl⟩

theorem sweep_fills (c : Int → Bool) (ts : Nat) (rem : Int) (ls : List Level) :
    ∀ f ∈ (sweep c ts rem ls).1,
      ∃ l ∈ ls, f.price = l.1 ∧ f.taker_seq = ts ∧
        ∃ ro ∈ l.2, f.maker_seq = ro.seq := by
  induction ls generalizing rem with
  | nil => simp [sweep]
  | cons l rest ih =>
    obtain ⟨p, q⟩ := l
    intro f hf
    by_cases h1 : rem ≤ 0
    · simp [sweep, h1] at hf
    · by_cases h2 : c p
      · by_cases h3 : (matchQueue ts p rem q).2.2.isEmpty
        · simp only [sweep, if_neg h1, h2, not_true_eq_false, if_false,
            if_pos h3, List.mem_append] at hf
          rcases hf with hf | hf
          · obtain ⟨hp, hts, ro, hro, hseq⟩ := matchQueue_fills ts p rem q f hf
            exact ⟨(p, q), List.mem_cons_self _ _, hp, hts, ro, hro, hseq⟩
          · obtain ⟨l, hl, rest'⟩ := ih _ f hf
            exact ⟨l, List.mem_cons_of_mem _ hl, rest'⟩
        · simp only [sweep, if_neg h1, h2, not_true_eq_false, if_false,
            if_neg h3] at hf
          obtain ⟨hp, hts, ro, hro, hseq⟩ := matchQueue_fills ts p rem q f hf
          exact ⟨(p, q), List.mem_cons_self _ _, hp, hts, ro, hro, hseq⟩
      · simp [sweep, h1, h2] at hf

/-- C8: every fill returned by `OrderBook.add` carries the price of the
price level the maker was resting at on the opposite side of the book
(never the taker's limit price), together with the seq of that resting
maker; its `taker_seq` is the incoming order's seq. -/
theorem maker_price_dominates (b : OrderBook) (o : Order) :
    ∀ f ∈ (OrderBook.add b o).1,
      ∃ l ∈ oppositeLevels b o.side, f.price = l.1 ∧ f.taker_seq = o.seq ∧
        ∃ ro ∈ l.2, f.maker_seq = ro.seq := by
  intro f hf
  by_cases hq : o.qty ≤ 0
  · simp [OrderBook.add, addCore, hq] at hf
  · by_cases hp : o.price < 0
    · simp [OrderBook.add, addCore, hq, hp] at hf
    · cases hside : o.side with
      | Buy =>
        simp only [OrderBook.add, addCore, hside, if_neg hq, if_neg hp] at hf
        simpa [oppositeLevels, hside] using
          sweep_fills (fun p => decide (p ≤ o.price)) o.seq o.qty b.asks f hf
      | Sell =>
        simp only [OrderBook.add, addCore, hside, if_neg hq, if_neg hp] at hf
        have := sweep_fills (fun p => decide (o.price ≤ p)) o.seq o.qty
          b.bids.reverse f hf
        obtain ⟨l, hl, rest'⟩ := this
        exact ⟨l, by simpa [oppositeLevels, hside] using List.mem_reverse.mp hl,
          rest'⟩

/-- Witness for C8: the single fill of a Buy taker at 101 against a
resting ask carries the maker level price 101 and the maker's seq 1. -/
theorem maker_price_dominates_witness :
    ∃ l ∈ oppositeLevels ⟨[], [(101, [⟨1, Side.Sell, 101, 2, "a"⟩])]⟩ Side.Buy,
      (Fill.mk 1 2 101 2).price = l.1 ∧ (Fill.mk 1 2 101 2).taker_seq = 2 ∧
        ∃ ro ∈ l.2, (Fill.mk 1 2 101 2).maker_seq = ro.seq := by
  have h := maker_price_dominates ⟨[], [(101, [⟨1, Side.Sell, 101, 2, "a"⟩])]⟩
    ⟨2, Side.Buy, 101, 5, "b"⟩ (Fill.mk 1 2 101 2) (by decide)
  simpa using h

/-- A side's price levels are in strictly ascending price order (the
`BTreeMap` key invariant). -/
def sortedSide (ls : List Level) : Prop :=
  (ls.map Prod.fst).Pairwise (· < ·)

/-- Every queue of a side lists its resting orders in strictly ascending
seq (arrival) order. -/
def fifoQueues (ls : List Level) : Prop :=
  ∀ l ∈ ls, (l.2.map RestingOrder.seq).Pairwise (· < ·)

theorem matchQueue_maker_sublist (ts : Nat) (p : Int) (rem : Int)
    (q : List RestingOrder) :
    ((matchQueue ts p rem q).1.map Fill.maker_seq).Sublist
      (q.map RestingOrder.seq) := by
  induction q generalizing rem with
  | nil => simp [matchQueue]
  | cons front rest ih =>
    by_cases h1 : rem ≤ 0
    · simp [matchQueue, h1]
    · by_cases h2 : front.remaining_qty ≤ 0
      · simp only [matchQueue, if_neg h1, if_pos h2, List.map_cons]
        exact (ih rem).cons _
      · by_cases h3 : front.remaining_qty ≤ rem
        · simp only [matchQueue, if_neg h1, if_neg h2, if_pos h3, List.map_cons]
          exact (ih _).cons₂ _
        · simp only [matchQueue, if_neg h1, if_neg h2, if_neg h3, List.map_cons,
            List.map_nil]
          exact (List.nil_sublist _).cons₂ _

theorem sweep_pairwise (Pr : Int → Int → Prop) (c : Int → Bool) (ts : Nat)
    (rem : Int) (ls : List Level)
    (hkeys : (ls.map Prod.fst).Pairwise Pr)
    (hq : ∀ l ∈ ls, (l.2.map RestingOrder.seq).Pairwise (· < ·)) :
    ((sweep c ts rem ls).1).Pairwise (fun f g =>
      Pr f.price g.price ∨ (f.price = g.price ∧ f.maker_seq < g.maker_seq)) := by
  induction ls generalizing rem with
  | nil => simp [sweep]
  | cons l rest ih =>
    obtain ⟨p, q⟩ := l
    have hlevel : ((matchQueue ts p rem q).1).Pairwise (fun f g =>
        Pr f.price g.price ∨ (f.price = g.price ∧ f.maker_seq < g.maker_seq)) := by
      have hsub := (hq (p, q) (List.mem_cons_self _ _)).sublist
        (matchQueue_maker_sublist ts p rem q)
      have hmk : ((matchQueue ts p rem q).1).Pairwise
          (fun f g => f.maker_seq < g.maker_seq) := List.pairwise_map.mp hsub
      refine hmk.imp_of_mem ?_
      intro f g hf hg hlt
      have hf' := (matchQueue_fills ts p rem q f hf).1
      have hg' := (matchQueue_fills ts p rem q g hg).1
      exact Or.inr ⟨hf'.trans hg'.symm, hlt⟩
    by_cases h1 : rem ≤ 0
    · simp [sweep, h1]
    · by_cases h2 : c p
      · by_cases h3 : (matchQueue ts p rem q).2.2.isEmpty
        · simp only [sweep, if_neg h1, h2, not_true_eq_false, if_false,
            if_pos h3]
          rw [List.pairwise_append]
          refine ⟨hlevel, ih _ (List.pairwise_cons.mp hkeys).2
            (fun l hl => hq l (List.mem_cons_of_mem _ hl)), ?_⟩
          intro f hf g hg
          have hf' := (matchQueue_fills ts p rem q f hf).1
          obtain ⟨l', hl', hg', -⟩ := sweep_fills c ts _ rest g hg
          have hPr : Pr p l'.1 := (List.pairwise_cons.mp hkeys).1 l'.1
            (List.mem_map_of_mem Prod.fst hl')
          exact Or.inl (by rw [hf', hg']; exact hPr)
        · simpa [sweep, h1, h2, h3] using hlevel
      · simp [sweep, h1, h2]

/-- C7: fills returned by one `OrderBook.add` call come in sweep order.
Given the book's structural invariants (levels strictly sorted by price,
per-level queues in strictly ascending seq order), a Buy taker's fills
have ascending level prices and a Sell taker's fills have descending
level prices, with strictly increasing `maker_seq` among fills at the
same price. -/
theorem fills_in_sweep_order (b : OrderBook) (o : Order)
    (hb : sortedSide b.bids) (ha : sortedSide b.asks)
    (hqb : fifoQueues b.bids) (hqa : fifoQueues b.asks) :
    (o.side = Side.Buy → ((OrderBook.add b o).1).Pairwise (fun f g =>
      f.price < g.price ∨ (f.price = g.price ∧ f.maker_seq < g.maker_seq)))
    ∧ (o.side = Side.Sell → ((OrderBook.add b o).1).Pairwise (fun f g =>
      g.price < f.price ∨ (f.price = g.price ∧ f.maker_seq < g.maker_seq))) := by
  constructor
  · intro hside
    by_cases hq : o.qty ≤ 0
    · simp [OrderBook.add, addCore, hq]
    · by_cases hp : o.price < 0
      · simp [OrderBook.add, addCore, hq, hp]
      · simp only [OrderBook.add, addCore, hside, if_neg hq, if_neg hp]
        exact sweep_pairwise (· < ·) (fun p => decide (p ≤ o.price)) o.seq
          o.qty b.asks ha hqa
  · intro hside
    by_cases hq : o.qty ≤ 0
    · simp [OrderBook.add, addCore, hq]
    · by_cases hp : o.price < 0
      · simp [OrderBook.add, addCore, hq, hp]
      · simp only [OrderBook.add, addCore, hside, if_neg hq, if_neg hp]
        refine sweep_pairwise (fun a b => b < a) (fun p => decide (o.price ≤ p))
          o.seq o.qty b.bids.reverse ?_ ?_
        · rw [List.map_reverse]
          exact List.pairwise_reverse.mpr hb
        · intro l hl
          exact hqb l (List.mem_reverse.mp hl)

/-- Witness for C7: a Buy taker sweeping asks at 101 then 102 produces
fills in ascending price order. -/
theorem fills_in_sweep_order_witness :
    sortedSide ([] : List Level) ∧
    ((OrderBook.add
        ⟨[], [(101, [⟨1, Side.Sell, 101, 4, "a"⟩]),
              (102, [⟨2, Side.Sell, 102, 2, "b"⟩])]⟩
        ⟨3, Side.Buy, 102, 5, "c"⟩).1).Pairwise (fun f g =>
      f.price < g.price ∨ (f.price = g.price ∧ f.maker_seq < g.maker_seq)) := by
  constructor
  · simp [sortedSide]
  · exact (fills_in_sweep_order
      ⟨[], [(101, [⟨1, Side.Sell, 101, 4, "a"⟩]),
            (102, [⟨2, Side.Sell, 102, 2, "b"⟩])]⟩
      ⟨3, Side.Buy, 102, 5, "c"⟩
      (by unfold sortedSide; decide) (by unfold sortedSide; decide)
      (by unfold fifoQueues; decide) (by unfold fifoQueues; decide)).1 rfl

/-- Every bid price is strictly below every ask price.  (With both sides
non-empty this is equivalent to `best_bid < best_ask`.) -/
def NonCrossing (b : OrderBook) : Prop :=
  ∀ pb ∈ b.bids.map Prod.fst, ∀ pa ∈ b.asks.map Prod.fst, pb < pa

/-- Structural book invariant maintained by `OrderBook.add`. -/
def BookInv (b : OrderBook) : Prop :=
  sortedSide b.bids ∧ sortedSide b.asks ∧ NonCrossing b

theorem matchQueue_rem_of_not_empty (ts : Nat) (p : Int) (rem : Int)
    (q : List RestingOrder) (h : (matchQueue ts p rem q).2.2 ≠ []) :
    (matchQueue ts p rem q).2.1 ≤ 0 := by
  induction q generalizing rem with
  | nil => simp [matchQueue] at h
  | cons front rest ih =>
    by_cases h1 : rem ≤ 0
    · simp [matchQueue, h1]
    · by_cases h2 : front.remaining_qty ≤ 0
      · simp only [matchQueue, if_neg h1, if_pos h2] at h ⊢
        exact ih rem h
      · by_cases h3 : front.remaining_qty ≤ rem
        · simp only [matchQueue, if_neg h1, if_neg h2, if_pos h3] at h ⊢
          exact ih _ h
        · simp [matchQueue, h1, h2, h3]

theorem sweep_keys_suffix (c : Int → Bool) (ts : Nat) (rem : Int)
    (ls : List Level) :
    ((sweep c ts rem ls).2.2.map Prod.fst).IsSuffix (ls.map Prod.fst) := by
  induction ls generalizing rem with
  | nil => simp [sweep]
  | cons l rest ih =>
    obtain ⟨p, q⟩ := l
    by_cases h1 : rem ≤ 0
    · simp [sweep, h1]
    · by_cases h2 : c p
      · by_cases h3 : (matchQueue ts p rem q).2.2.isEmpty
        · simp only [sweep, if_neg h1, h2, not_true_eq_false, if_false,
            if_pos h3]
          exact (ih _).trans (List.suffix_cons _ _)
        · simp [sweep, h1, h2, h3]
      · simp [sweep, h1, h2]

theorem sweep_stop (c : Int → Bool) (ts : Nat) (rem : Int) (ls : List Level)
    (hmono : (ls.map Prod.fst).Pairwise (fun a b => c b = true → c a = true))
    (hrem : 0 < (sweep c ts rem ls).2.1) :
    ∀ l ∈ (sweep c ts rem ls).2.2, ¬ c l.1 := by
  induction ls generalizing rem with
  | nil => simp [sweep]
  | cons l rest ih =>
    obtain ⟨p, q⟩ := l
    by_cases h1 : rem ≤ 0
    · simp [sweep, h1] at hrem
      omega
    · by_cases h2 : c p
      · by_cases h3 : (matchQueue ts p rem q).2.2.isEmpty
        · simp only [sweep, if_neg h1, h2, not_true_eq_false, if_false,
            if_pos h3] at hrem ⊢
          exact ih _ (List.pairwise_cons.mp hmono).2 hrem
        · simp only [sweep, if_neg h1, h2, not_true_eq_false, if_false,
            if_neg h3] at hrem
          have := matchQueue_rem_of_not_empty ts p rem q
            (by simpa [List.isEmpty_iff] using h3)
          omega
      · intro l hl
        simp only [sweep, if_neg h1, if_neg, h2, not_false_eq_true,
          if_true] at hl
        rcases List.mem_cons.mp hl with rfl | hl'
        · simpa using h2
        · have := (List.pairwise_cons.mp hmono).1 l.1
            (List.mem_map_of_mem Prod.fst hl')
          intro hc
          exact h2 (this (by simpa using hc))

theorem insertLevel_keys_subset (p : Int) (ro : RestingOrder) (ls : List Level) :
    ∀ x ∈ (insertLevel p ro ls).map Prod.fst, x = p ∨ x ∈ ls.map Prod.fst := by
  induction ls with
  | nil => simp [insertLevel]
  | cons l rest ih =>
    obtain ⟨a, q⟩ := l
    intro x hx
    by_cases h1 : p < a
    · simp only [insertLevel, if_pos h1, List.map_cons, List.mem_cons] at hx ⊢
      tauto
    · by_cases h2 : p = a
      · simp only [insertLevel, if_neg h1, if_pos h2, List.map_cons,
          List.mem_cons] at hx ⊢
        tauto
      · simp only [insertLevel, if_neg h1, if_neg h2, List.map_cons,
          List.mem_cons] at hx ⊢
        rcases hx with rfl | hx
        · tauto
        · rcases ih x hx with h | h <;> tauto

theorem insertLevel_sorted (p : Int) (ro : RestingOrder) (ls : List Level)
    (hs : (ls.map Prod.fst).Pairwise (· < ·)) :
    ((insertLevel p ro ls).map Prod.fst).Pairwise (· < ·) := by
  induction ls with
  | nil => simp [insertLevel]
  | cons l rest ih =>
    obtain ⟨a, q⟩ := l
    rw [List.map_cons, List.pairwise_cons] at hs
    by_cases h1 : p < a
    · simp only [insertLevel, if_pos h1, List.map_cons]
      refine List.pairwise_cons.mpr ⟨?_, List.pairwise_cons.mpr hs⟩
      intro b hb
      rcases List.mem_cons.mp hb with rfl | hb'
      · exact h1
      · exact h1.trans (hs.1 b hb')
    · by_cases h2 : p = a
      · simp only [insertLevel, if_neg h1, if_pos h2, List.map_cons]
        exact List.pairwise_cons.mpr hs
      · simp only [insertLevel, if_neg h1, if_neg h2, List.map_cons]
        refine List.pairwise_cons.mpr ⟨?_, ih hs.2⟩
        intro b hb
        rcases insertLevel_keys_subset p ro rest b hb with rfl | hb'
        · omega
        · exact hs.1 b hb'

theorem add_preserves_inv (b : OrderBook) (o : Order) (hinv : BookInv b) :
    BookInv (OrderBook.add b o).2 := by
  obtain ⟨hb, ha, hcross⟩ := hinv
  by_cases hq : o.qty ≤ 0
  · simpa [OrderBook.add, addCore, hq] using ⟨hb, ha, hcross⟩
  · by_cases hp : o.price < 0
    · simpa [OrderBook.add, addCore, hq, hp] using ⟨hb, ha, hcross⟩
    · cases hside : o.side with
      | Buy =>
        simp only [OrderBook.add, addCore, hside, if_neg hq, if_neg hp]
        set c := fun p : Int => decide (p ≤ o.price) with hc
        set r := sweep c o.seq o.qty b.asks with hr
        have hsuffix := sweep_keys_suffix c o.seq o.qty b.asks
        have hasks' : sortedSide r.2.2 := ha.sublist hsuffix.sublist
        have hsub : ∀ pa ∈ r.2.2.map Prod.fst, pa ∈ b.asks.map Prod.fst :=
          fun pa hpa => hsuffix.sublist.mem hpa
        by_cases hrem : 0 < r.2.1
        · rw [if_pos hrem]
          refine ⟨insertLevel_sorted _ _ _ hb, hasks', ?_⟩
          intro pb hpb pa hpa
          rcases insertLevel_keys_subset _ _ _ pb hpb with rfl | hpb'
          · obtain ⟨l, hl, hleq⟩ := List.mem_map.mp hpa
            have hstop := sweep_stop c o.seq o.qty b.asks
              (ha.imp (fun {x y} hxy hy => by
                simp only [hc, decide_eq_true_eq] at hy ⊢
                omega)) hrem l hl
            simp only [hc, decide_eq_true_eq] at hstop
            omega
          · exact hcross pb hpb' pa (hsub pa hpa)
        · rw [if_neg hrem]
          exact ⟨hb, hasks', fun pb hpb pa hpa => hcross pb hpb pa (hsub pa hpa)⟩
      | Sell =>
        simp only [OrderBook.add, addCore, hside, if_neg hq, if_neg hp]
        set c := fun p : Int => decide (o.price ≤ p) with hc
        set r := sweep c o.seq o.qty b.bids.reverse with hr
        have hsuffix := sweep_keys_suffix c o.seq o.qty b.bids.reverse
        have hrevsorted : ((b.bids.reverse).map Prod.fst).Pairwise
            (fun a b => b < a) := by
          rw [List.map_reverse]
          exact List.pairwise_reverse.mpr hb
        have hbids' : sortedSide r.2.2.reverse := by
          unfold sortedSide
          rw [List.map_reverse, List.pairwise_reverse]
          exact hrevsorted.sublist hsuffix.sublist
        have hsub : ∀ pb ∈ r.2.2.map Prod.fst, pb ∈ b.bids.map Prod.fst := by
          intro pb hpb
          have := hsuffix.sublist.mem hpb
          rw [List.map_reverse] at this
          exact List.mem_reverse.mp this
        have hsub' : ∀ pb ∈ r.2.2.reverse.map Prod.fst,
            pb ∈ b.bids.map Prod.fst := by
          intro pb hpb
          rw [List.map_reverse, List.mem_reverse] at hpb
          exact hsub pb hpb
        by_cases hrem : 0 < r.2.1
        · rw [if_pos hrem]
          refine ⟨hbids', insertLevel_sorted _ _ _ ha, ?_⟩
          intro pb hpb pa hpa
          rcases insertLevel_keys_subset _ _ _ pa hpa with rfl | hpa'
          · rw [List.map_reverse, List.mem_reverse] at hpb
            obtain ⟨l, hl, hleq⟩ := List.mem_map.mp hpb
            have hstop := sweep_stop c o.seq o.qty b.bids.reverse
              (hrevsorted.imp (fun {x y} hxy hy => by
                simp only [hc, decide_eq_true_eq] at hy ⊢
                omega)) hrem l hl
            simp only [hc, decide_eq_true_eq] at hstop
            omega
          · exact hcross pb (hsub' pb hpb) pa hpa'
        · rw [if_neg hrem]
          exact ⟨hbids', ha, fun pb hpb pa hpa =>
            hcross pb (hsub' pb hpb) pa hpa⟩

/-- Books reachable from the empty book by a sequence of
`OrderBook.add` calls. -/
inductive ReachableBook : OrderBook → Prop where
  | empty : ReachableBook OrderBook.empty
  | step (b : OrderBook) (o : Order) :
      ReachableBook b → ReachableBook (OrderBook.add b o).2

theorem reachable_inv (b : OrderBook) (h : ReachableBook b) : BookInv b := by
  induction h with
  | empty =>
    exact ⟨by simp [OrderBook.empty, sortedSide],
      by simp [OrderBook.empty, sortedSide],
      by simp [OrderBook.empty, NonCrossing]⟩
  | step b o _ ih => exact add_preserves_inv b o ih

/-- C3: in any book reachable from the empty book by `OrderBook.add`
calls, whenever both sides are non-empty the greatest bid price is
strictly below the smallest ask price. -/
theorem never_crossed_at_rest (b : OrderBook) (h : ReachableBook b)
    (pb pa : Int) (hpb : (b.bids.map Prod.fst).max? = some pb)
    (hpa : (b.asks.map Prod.fst).min? = some pa) : pb < pa := by
  have hinv := reachable_inv b h
  exact hinv.2.2 pb (List.max?_mem (fun _ _ => max_choice _ _) hpb)
    pa (List.min?_mem (fun _ _ => min_choice _ _) hpa)

/-- Witness for C3: resting a bid at 100 and an ask at 101 yields a
reachable book whose best bid 100 is below its best ask 101. -/
theorem never_crossed_at_rest_witness :
    ((((OrderBook.empty.add ⟨1, Side.Buy, 100, 5, "a"⟩).2.add
        ⟨2, Side.Sell, 101, 5, "b"⟩).2.bids.map Prod.fst).max? = some 100) ∧
    (100 : Int) < 101 := by
  refine ⟨by decide, ?_⟩
  exact never_crossed_at_rest
    ((OrderBook.empty.add ⟨1, Side.Buy, 100, 5, "a"⟩).2.add
      ⟨2, Side.Sell, 101, 5, "b"⟩).2
    (ReachableBook.step _ _ (ReachableBook.step _ _ ReachableBook.empty))
    100 101 (by decide) (by decide)

/-! ## Engine core (`main.rs`) -/

/-- `Trade` from the gRPC surface, as built in `EngineSvc::submit_order`. -/
structure Trade where
  trade_id : Nat
  symbol : String
  price : Int
  qty : Int
  maker_seq : Nat
  taker_seq : Nat
  taker_side : Int
deriving DecidableEq, Repr

/-- `EngineState` from `main.rs`.  The two `HashMap`s are modelled as
association lists; only `alistGet?`/`alistSet` observe or update them,
which matches `HashMap` get/insert semantics. -/
structure EngineState where
  seq : Nat
  books : List (String × OrderBook)
  next_trade_id : Nat
  trades : List (String × List Trade)
deriving DecidableEq, Repr

/-- `EngineState::default()`. -/
def EngineState.default : EngineState :=
  { seq := 0, books := [], next_trade_id := 0, trades := [] }

/-- `WalEntry` from `wal.rs`. -/
structure WalEntry where
  seq : Nat
  symbol : String
  side : String
  price : Int
  qty : Int
  client_order_id : String
deriving DecidableEq, Repr

/-- `SubmitOrderRequest` fields used by `EngineSvc::submit_order`
(`side` is the raw protobuf i32). -/
structure SubmitOrderRequest where
  symbol : String
  side : Int
  price : Int
  qty : Int
  client_order_id : String
deriving DecidableEq, Repr

/-- The two gRPC error kinds `submit_order` can return. -/
inductive GrpcStatus where
  | invalidArgument
  | unavailable
deriving DecidableEq, Repr

/-- Modelled from the spec: the protobuf `Side` enum of `engine.v1` is
generated code not present under `src/`; per the spec's RPC surface
(`side ∈ {Buy, Sell}`, with validation rejecting the unspecified value)
and proto3 convention the variants are `Unspecified = 0`, `Buy = 1`,
`Sell = 2`. -/
def SIDE_UNSPECIFIED : Int := 0

/-- Modelled from the spec: protobuf `Side::Buy` (see `SIDE_UNSPECIFIED`). -/
def SIDE_BUY : Int := 1

/-- Modelled from the spec: protobuf `Side::Sell` (see `SIDE_UNSPECIFIED`). -/
def SIDE_SELL : Int := 2

/-- `str::trim` as used on `symbol` and `client_order_id`: drop leading
and trailing whitespace.  (Written over the string's character list so
it evaluates inside proofs; Lean's built-in `String.trim` does not
reduce in the kernel.) -/
def strTrim (s : String) : String :=
  ⟨((s.data.dropWhile Char.isWhitespace).reverse.dropWhile
      Char.isWhitespace).reverse⟩

/-- `HashMap::get`, on the association-list model. -/
def alistGet? {β : Type} (k : String) : List (String × β) → Option β
  | [] => none
  | (a, v) :: rest => if a = k then some v else alistGet? k rest

/-- `HashMap::insert` (overwrite or add), on the association-list model. -/
def alistSet {β : Type} (k : String) (v : β) :
    List (String × β) → List (String × β)
  | [] => [(k, v)]
  | (a, w) :: rest =>
    if a = k then (a, v) :: rest else (a, w) :: alistSet k v rest

/-- `MAX_TRADES_PER_SYMBOL` from `main.rs`. -/
def MAX_TRADES_PER_SYMBOL : Nat := 10000

/-- `MAX_TRADES_LIMIT` from `main.rs`. -/
def MAX_TRADES_LIMIT : Nat := 1000

/-- The `while q.len() > MAX_TRADES_PER_SYMBOL { q.pop_front(); }`
loop of `EngineSvc::append_trade`. -/
def popToCap (q : List Trade) : List Trade :=
  if MAX_TRADES_PER_SYMBOL < q.length then popToCap q.tail else q
termination_by q.length
decreasing_by simp [List.length_tail]; omega

/-- `EngineSvc::append_trade`. -/
def appendTrade (trades : List (String × List Trade)) (symbol : String)
    (t : Trade) : List (String × List Trade) :=
  let q := (alistGet? symbol trades).getD []
  alistSet symbol (popToCap (q ++ [t])) trades

/-- The `for f in fills` loop of `EngineSvc::submit_order`: allocate a
`trade_id` per fill and append the trade to the per-symbol tape.
Returns the updated `next_trade_id` and tape map. -/
def recordTrades (symbol : String) (reqSide : Int) :
    List Fill → Nat → List (String × List Trade) →
      Nat × List (String × List Trade)
  | [], ntid, trades => (ntid, trades)
  | f :: rest, ntid, trades =>
    let trade_id := ntid + 1
    let taker_side := if reqSide = SIDE_BUY then SIDE_BUY else SIDE_SELL
    let t : Trade :=
      { trade_id := trade_id, symbol := symbol, price := f.price, qty := f.qty
        maker_seq := f.maker_seq, taker_seq := f.taker_seq
        taker_side := taker_side }
    recordTrades symbol reqSide rest trade_id (appendTrade trades symbol t)

/-- `EngineSvc::submit_order` from `main.rs`.  `walOk` models whether
`Wal::append` succeeds; the WAL file itself is the list of entries
appended so far.  Returns the gRPC result together with the post-call
engine state and WAL contents. -/
def submitOrder (walOk : Bool) (st : EngineState) (wal : List WalEntry)
    (req : SubmitOrderRequest) :
    Except GrpcStatus (Nat × List Fill) × EngineState × List WalEntry :=
  let symbol := strTrim req.symbol
  if symbol.isEmpty then (.error .invalidArgument, st, wal)
  else if req.qty ≤ 0 then (.error .invalidArgument, st, wal)
  else if req.price < 0 then (.error .invalidArgument, st, wal)
  else if req.side = SIDE_UNSPECIFIED then (.error .invalidArgument, st, wal)
  else
    let client_order_id := strTrim req.client_order_id
    let seq := st.seq + 1
    let side_str := if req.side = SIDE_BUY then "BUY" else "SELL"
    let entry : WalEntry :=
      { seq := seq, symbol := symbol, side := side_str
        price := req.price, qty := req.qty, client_order_id := client_order_id }
    if ¬ walOk then
      -- roll back seq so the sequence stays gap-free
      (.error .unavailable, { st with seq := seq - 1 }, wal)
    else
      let side := if req.side = SIDE_BUY then Side.Buy else Side.Sell
      let book := (alistGet? symbol st.books).getD OrderBook.empty
      let r := book.add
        { seq := seq, side := side, price := req.price, qty := req.qty
          client_order_id := client_order_id }
      let books' := alistSet symbol r.2 st.books
      let rt := recordTrades symbol req.side r.1 st.next_trade_id st.trades
      (.ok (seq, r.1),
        { seq := seq, books := books', next_trade_id := rt.1, trades := rt.2 },
        wal ++ [entry])

/-- C4: when the WAL append fails, `submit_order` surfaces `unavailable`,
returns with `state.seq` rolled back to its pre-call value, leaves every
book, the trade tape and the WAL untouched (the whole state is returned
unchanged), and the next successful submit is assigned `st.seq + 1`:
exactly the seq the failed call would have used. -/
theorem wal_append_failure_rollback (st : EngineState) (wal : List WalEntry)
    (req req2 : SubmitOrderRequest)
    (hs : (strTrim req.symbol).isEmpty = false) (hq : 0 < req.qty)
    (hp : 0 ≤ req.price) (hd : req.side ≠ SIDE_UNSPECIFIED)
    (hs2 : (strTrim req2.symbol).isEmpty = false) (hq2 : 0 < req2.qty)
    (hp2 : 0 ≤ req2.price) (hd2 : req2.side ≠ SIDE_UNSPECIFIED) :
    submitOrder false st wal req = (.error .unavailable, st, wal)
    ∧ ∃ fills, (submitOrder true st wal req2).1 = .ok (st.seq + 1, fills) := by
  have hq' : ¬ req.qty ≤ 0 := by omega
  have hp' : ¬ req.price < 0 := by omega
  have hq2' : ¬ req2.qty ≤ 0 := by omega
  have hp2' : ¬ req2.price < 0 := by omega
  constructor
  · cases st with
    | mk s b n t => simp [submitOrder, hs, hq', hp', hd]
  · simp only [submitOrder, hs2, Bool.false_eq_true, if_false, if_neg hq2',
      if_neg hp2', if_neg hd2, not_true_eq_false]
    exact ⟨_, rfl⟩

/-- Witness for C4 at a concrete input: a failed submit on a fresh engine
leaves the state untouched, and a subsequent successful submit gets seq 1. -/
theorem wal_append_failure_rollback_witness :
    submitOrder false EngineState.default [] ⟨"X", 1, 100, 5, "a"⟩ =
      (.error .unavailable, EngineState.default, [])
    ∧ ∃ fills,
        (submitOrder true EngineState.default [] ⟨"X", 1, 100, 5, "a"⟩).1 =
          .ok (EngineState.default.seq + 1, fills) :=
  wal_append_failure_rollback EngineState.default [] ⟨"X", 1, 100, 5, "a"⟩
    ⟨"X", 1, 100, 5, "a"⟩ (by decide) (by decide) (by decide) (by decide)
    (by decide) (by decide) (by decide) (by decide)

theorem submitOrder_ok_seq (w : Bool) (st : EngineState) (wal : List WalEntry)
    (req : SubmitOrderRequest) (s : Nat) (fs : List Fill)
    (h : (submitOrder w st wal req).1 = .ok (s, fs)) :
    s = st.seq + 1 ∧ (submitOrder w st wal req).2.1.seq = st.seq + 1 := by
  simp only [submitOrder] at h ⊢
  split_ifs at h ⊢ <;> simp_all

theorem submitOrder_error_seq (w : Bool) (st : EngineState)
    (wal : List WalEntry) (req : SubmitOrderRequest) (e : GrpcStatus)
    (h : (submitOrder w st wal req).1 = .error e) :
    (submitOrder w st wal req).2.1.seq = st.seq := by
  simp only [submitOrder] at h ⊢
  split_ifs at h ⊢ <;> simp_all

/-- Driver for C5: run a list of `(walOk, request)` events through
`submitOrder`, collecting the `accepted_seq` of every successful call in
order. -/
def runEvents (st : EngineState) (wal : List WalEntry) :
    List (Bool × SubmitOrderRequest) →
      EngineState × List WalEntry × List Nat
  | [] => (st, wal, [])
  | (w, req) :: rest =>
    let r := submitOrder w st wal req
    let rec' := runEvents r.2.1 r.2.2 rest
    match r.1 with
    | .ok (s, _) => (rec'.1, rec'.2.1, s :: rec'.2.2)
    | .error _ => rec'

theorem runEvents_accepted (events : List (Bool × SubmitOrderRequest))
    (st : EngineState) (wal : List WalEntry) :
    (runEvents st wal events).2.2 =
      List.range' (st.seq + 1) (runEvents st wal events).2.2.length
    ∧ (runEvents st wal events).1.seq =
        st.seq + (runEvents st wal events).2.2.length := by
  induction events generalizing st wal with
  | nil => simp [runEvents]
  | cons ev rest ih =>
    obtain ⟨w, req⟩ := ev
    cases hr : (submitOrder w st wal req).1 with
    | ok sf =>
      obtain ⟨s, fs⟩ := sf
      obtain ⟨hs, hst⟩ := submitOrder_ok_seq w st wal req s fs hr
      subst hs
      obtain ⟨ih1, ih2⟩ := ih (submitOrder w st wal req).2.1
        (submitOrder w st wal req).2.2
      rw [hst] at ih1 ih2
      simp only [runEvents, hr]
      constructor
      · rw [List.length_cons, List.range'_succ]
        exact congrArg _ ih1
      · rw [List.length_cons]
        omega
    | error e =>
      have hst := submitOrder_error_seq w st wal req e hr
      obtain ⟨ih1, ih2⟩ := ih (submitOrder w st wal req).2.1
        (submitOrder w st wal req).2.2
      rw [hst] at ih1 ih2
      simp only [runEvents, hr]
      exact ⟨ih1, ih2⟩

/-- C5: starting from a fresh engine (`seq = 0`), after any interleaving
of successful, WAL-failed and validation-rejected submits, the list of
returned `accepted_seq` values is exactly `[1, 2, …, N]` for `N` the
number of successes: no gaps, no repeats. -/
theorem monotonic_gap_free_seq (events : List (Bool × SubmitOrderRequest)) :
    (runEvents EngineState.default [] events).2.2 =
      List.range' 1 (runEvents EngineState.default [] events).2.2.length := by
  simpa [EngineState.default] using
    (runEvents_accepted events EngineState.default []).1

theorem recordTrades_nonbuy (sym : String) (a b : Int)
    (ha : a ≠ SIDE_BUY) (hb : b ≠ SIDE_BUY) :
    ∀ (fs : List Fill) (n : Nat) (tr : List (String × List Trade)),
      recordTrades sym a fs n tr = recordTrades sym b fs n tr := by
  intro fs
  induction fs with
  | nil => intro n tr; rfl
  | cons f rest ih =>
    intro n tr
    simp only [recordTrades, if_neg ha, if_neg hb]
    exact ih _ _

/-- C10: with the symbol, qty and price validations passing,
`submit_order` rejects with invalid-argument exactly when `side` is the
unspecified protobuf value `0`; any other non-Buy side value — including
integers outside the enum — is processed identically to an explicit
Sell, WAL entry and matching included. -/
theorem side_validation_and_sell_default (st : EngineState)
    (wal : List WalEntry) (req : SubmitOrderRequest)
    (hs : (strTrim req.symbol).isEmpty = false) (hq : 0 < req.qty)
    (hp : 0 ≤ req.price) :
    ((submitOrder true st wal req).1 = .error .invalidArgument ↔
      req.side = SIDE_UNSPECIFIED)
    ∧ (req.side ≠ SIDE_UNSPECIFIED → req.side ≠ SIDE_BUY →
        submitOrder true st wal req =
          submitOrder true st wal { req with side := SIDE_SELL }) := by
  have hq' : ¬ req.qty ≤ 0 := by omega
  have hp' : ¬ req.price < 0 := by omega
  constructor
  · constructor
    · intro h
      by_contra hd
      simp [submitOrder, hs, hq', hp', hd] at h
    · intro hd
      simp [submitOrder, hs, hq', hp', hd]
  · intro hd hb
    have hb2 : SIDE_SELL ≠ SIDE_BUY := by decide
    have hd2 : SIDE_SELL ≠ SIDE_UNSPECIFIED := by decide
    have hrt := recordTrades_nonbuy (strTrim req.symbol) req.side SIDE_SELL hb hb2
    simp [submitOrder, hs, hq', hp', hd, hb, hd2, hb2, hrt]

/-- Witness for C10: side value 7 (outside the enum) on an otherwise
valid request behaves exactly like an explicit Sell. -/
theorem side_validation_and_sell_default_witness :
    ¬ ((submitOrder true EngineState.default [] ⟨"X", 7, 100, 5, "a"⟩).1 =
        .error .invalidArgument)
    ∧ submitOrder true EngineState.default [] ⟨"X", 7, 100, 5, "a"⟩ =
        submitOrder true EngineState.default [] ⟨"X", SIDE_SELL, 100, 5, "a"⟩ := by
  have h := side_validation_and_sell_default EngineState.default []
    ⟨"X", 7, 100, 5, "a"⟩ (by decide) (by decide) (by decide)
  refine ⟨fun hc => by have := h.1.mp hc; revert this; decide, ?_⟩
  exact h.2 (by decide) (by decide)

/-! ## Engine reachability and maker/taker seq ordering (C9) -/

/-- Every resting order on the given levels has seq at most `n`. -/
def queueSeqLe (n : Nat) (ls : List Level) : Prop :=
  ∀ l ∈ ls, ∀ ro ∈ l.2, ro.seq ≤ n

/-- All resting orders in all books carry a seq no greater than the
engine's seq counter. -/
def stateSeqBound (st : EngineState) : Prop :=
  ∀ sb ∈ st.books, queueSeqLe st.seq sb.2.bids ∧ queueSeqLe st.seq sb.2.asks

/-- Engine states reachable from a fresh engine by `submit_order` calls
(successful, WAL-failed or rejected). -/
inductive EngineReach : EngineState → Prop where
  | init : EngineReach EngineState.default
  | step (st : EngineState) (wal : List WalEntry) (w : Bool)
      (req : SubmitOrderRequest) :
      EngineReach st → EngineReach (submitOrder w st wal req).2.1

theorem matchQueue_queue_seqs (ts : Nat) (p : Int) (rem : Int)
    (q : List RestingOrder) :
    ∀ ro' ∈ (matchQueue ts p rem q).2.2, ∃ ro ∈ q, ro'.seq = ro.seq := by
  induction q generalizing rem with
  | nil => simp [matchQueue]
  | cons front rest ih =>
    intro ro' hro'
    by_cases h1 : rem ≤ 0
    · simp only [matchQueue, if_pos h1] at hro'
      exact ⟨ro', hro', rfl⟩
    · by_cases h2 : front.remaining_qty ≤ 0
      · simp only [matchQueue, if_neg h1, if_pos h2] at hro'
        obtain ⟨ro, hro, hseq⟩ := ih rem ro' hro'
        exact ⟨ro, List.mem_cons_of_mem _ hro, hseq⟩
      · by_cases h3 : front.remaining_qty ≤ rem
        · simp only [matchQueue, if_neg h1, if_neg h2, if_pos h3] at hro'
          obtain ⟨ro, hro, hseq⟩ := ih _ ro' hro'
          exact ⟨ro, List.mem_cons_of_mem _ hro, hseq⟩
        · simp only [matchQueue, if_neg h1, if_neg h2, if_neg h3,
            List.mem_cons] at hro'
          rcases hro' with rfl | hro'
          · exact ⟨front, List.mem_cons_self _ _, rfl⟩
          · exact ⟨ro', List.mem_cons_of_mem _ hro', rfl⟩

theorem sweep_queue_seqs (c : Int → Bool) (ts : Nat) (rem : Int)
    (ls : List Level) :
    ∀ l' ∈ (sweep c ts rem ls).2.2, ∀ ro' ∈ l'.2,
      ∃ l ∈ ls, ∃ ro ∈ l.2, ro'.seq = ro.seq := by
  induction ls generalizing rem with
  | nil => simp [sweep]
  | cons l rest ih =>
    obtain ⟨p, q⟩ := l
    intro l' hl' ro' hro'
    by_cases h1 : rem ≤ 0
    · simp only [sweep, if_pos h1] at hl'
      exact ⟨l', hl', ro', hro', rfl⟩
    · by_cases h2 : c p
      · by_cases h3 : (matchQueue ts p rem q).2.2.isEmpty
        · simp only [sweep, if_neg h1, h2, not_true_eq_false, if_false,
            if_pos h3] at hl'
          obtain ⟨l, hl, ro, hro, hseq⟩ := ih _ l' hl' ro' hro'
          exact ⟨l, List.mem_cons_of_mem _ hl, ro, hro, hseq⟩
        · simp only [sweep, if_neg h1, h2, not_true_eq_false, if_false,
            if_neg h3, List.mem_cons] at hl'
          rcases hl' with rfl | hl'
          · obtain ⟨ro, hro, hseq⟩ := matchQueue_queue_seqs ts p rem q ro' hro'
            exact ⟨(p, q), List.mem_cons_self _ _, ro, hro, hseq⟩
          · exact ⟨l', List.mem_cons_of_mem _ hl', ro', hro', rfl⟩
      · simp only [sweep, if_neg h1, if_neg, h2, not_false_eq_true,
          if_true] at hl'
        exact ⟨l', hl', ro', hro', rfl⟩

theorem insertLevel_members (p : Int) (ro : RestingOrder) (ls : List Level) :
    ∀ l' ∈ insertLevel p ro ls, ∀ ro' ∈ l'.2,
      (∃ l ∈ ls, ro' ∈ l.2) ∨ ro' = ro := by
  induction ls with
  | nil =>
    intro l' hl' ro' hro'
    simp only [insertLevel, List.mem_singleton] at hl'
    subst hl'
    simp only [List.mem_singleton] at hro'
    exact Or.inr hro'
  | cons l rest ih =>
    obtain ⟨a, q⟩ := l
    intro l' hl' ro' hro'
    by_cases h1 : p < a
    · simp only [insertLevel, if_pos h1, List.mem_cons] at hl'
      rcases hl' with rfl | hl'
      · simp only [List.mem_singleton] at hro'
        exact Or.inr hro'
      · rcases hl' with rfl | hl'
        · exact Or.inl ⟨(a, q), List.mem_cons_self _ _, hro'⟩
        · exact Or.inl ⟨l', List.mem_cons_of_mem _ hl', hro'⟩
    · by_cases h2 : p = a
      · simp only [insertLevel, if_neg h1, if_pos h2, List.mem_cons] at hl'
        rcases hl' with rfl | hl'
        · simp only [List.mem_append, List.mem_singleton] at hro'
          rcases hro' with hro' | rfl
          · exact Or.inl ⟨(a, q), List.mem_cons_self _ _, hro'⟩
          · exact Or.inr rfl
        · exact Or.inl ⟨l', List.mem_cons_of_mem _ hl', hro'⟩
      · simp only [insertLevel, if_neg h1, if_neg h2, List.mem_cons] at hl'
        rcases hl' with rfl | hl'
        · exact Or.inl ⟨(a, q), List.mem_cons_self _ _, hro'⟩
        · rcases ih l' hl' ro' hro' with ⟨l, hl, hm⟩ | h
          · exact Or.inl ⟨l, List.mem_cons_of_mem _ hl, hm⟩
          · exact Or.inr h

theorem queueSeqLe_mono (n m : Nat) (ls : List Level) (h : queueSeqLe n ls)
    (hnm : n ≤ m) : queueSeqLe m ls :=
  fun l hl ro hro => (h l hl ro hro).trans hnm

theorem add_queueSeqLe (b : OrderBook) (o : Order) (n : Nat)
    (hb : queueSeqLe n b.bids) (ha : queueSeqLe n b.asks) (ho : o.seq ≤ n) :
    queueSeqLe n (OrderBook.add b o).2.bids ∧
      queueSeqLe n (OrderBook.add b o).2.asks := by
  by_cases hq : o.qty ≤ 0
  · simp only [OrderBook.add, addCore, if_pos hq]
    exact ⟨hb, ha⟩
  · by_cases hp : o.price < 0
    · simp only [OrderBook.add, addCore, if_neg hq, if_pos hp]
      exact ⟨hb, ha⟩
    · cases hside : o.side with
      | Buy =>
        simp only [OrderBook.add, addCore, hside, if_neg hq, if_neg hp]
        constructor
        · by_cases hrem :
            0 < (sweep (fun p => decide (p ≤ o.price)) o.seq o.qty b.asks).2.1
          · rw [if_pos hrem]
            intro l hl ro hro
            rcases insertLevel_members _ _ _ l hl ro hro with ⟨l0, hl0, hm⟩ | rfl
            · exact hb l0 hl0 ro hm
            · exact ho
          · rw [if_neg hrem]; exact hb
        · intro l hl ro hro
          obtain ⟨l0, hl0, ro0, hro0, hseq⟩ :=
            sweep_queue_seqs _ o.seq o.qty b.asks l hl ro hro
          exact hseq ▸ ha l0 hl0 ro0 hro0
      | Sell =>
        simp only [OrderBook.add, addCore, hside, if_neg hq, if_neg hp]
        constructor
        · intro l hl ro hro
          rw [List.mem_reverse] at hl
          obtain ⟨l0, hl0, ro0, hro0, hseq⟩ :=
            sweep_queue_seqs _ o.seq o.qty b.bids.reverse l hl ro hro
          exact hseq ▸ hb l0 (List.mem_reverse.mp hl0) ro0 hro0
        · by_cases hrem :
            0 < (sweep (fun p => decide (o.price ≤ p)) o.seq o.qty
              b.bids.reverse).2.1
          · rw [if_pos hrem]
            intro l hl ro hro
            rcases insertLevel_members _ _ _ l hl ro hro with ⟨l0, hl0, hm⟩ | rfl
            · exact ha l0 hl0 ro hm
            · exact ho
          · rw [if_neg hrem]; exact ha

theorem alistSet_members {β : Type} (k : String) (v : β)
    (m : List (String × β)) :
    ∀ e ∈ alistSet k v m, e.2 = v ∨ e ∈ m := by
  induction m with
  | nil => intro e he; simp only [alistSet, List.mem_singleton] at he; simp [he]
  | cons a rest ih =>
    intro e he
    by_cases h : a.1 = k
    · simp only [alistSet, if_pos h, List.mem_cons] at he
      rcases he with rfl | he
      · exact Or.inl rfl
      · exact Or.inr (List.mem_cons_of_mem _ he)
    · simp only [alistSet, if_neg h, List.mem_cons] at he
      rcases he with rfl | he
      · exact Or.inr (List.mem_cons_self _ _)
      · rcases ih e he with h' | h'
        · exact Or.inl h'
        · exact Or.inr (List.mem_cons_of_mem _ h')

theorem alistGet?_mem {β : Type} (k : String) (v : β)
    (m : List (String × β)) (h : alistGet? k m = some v) : (k, v) ∈ m := by
  induction m with
  | nil => simp [alistGet?] at h
  | cons a rest ih =>
    by_cases h1 : a.1 = k
    · simp only [alistGet?, if_pos h1, Option.some.injEq] at h
      subst h
      rcases a with ⟨a1, a2⟩
      simp only at h1
      subst h1
      exact List.mem_cons_self _ _
    · simp only [alistGet?, if_neg h1] at h
      exact List.mem_cons_of_mem _ (ih h)

theorem reach_stateSeqBound (st : EngineState) (h : EngineReach st) :
    stateSeqBound st := by
  induction h with
  | init => intro sb hsb; simp [EngineState.default] at hsb
  | step st wal w req _ ih =>
    simp only [submitOrder]
    by_cases hs : (strTrim req.symbol).isEmpty
    · simpa [hs] using ih
    · by_cases hq : req.qty ≤ 0
      · simpa [hs, hq] using ih
      · by_cases hp : req.price < 0
        · simpa [hs, hq, hp] using ih
        · by_cases hd : req.side = SIDE_UNSPECIFIED
          · simpa [hs, hq, hp, hd] using ih
          · by_cases hw : w
            · simp only [hs, hq, hp, hd, hw, Bool.false_eq_true, if_false,
                not_true_eq_false, if_neg, if_true]
              intro sb hsb
              rcases alistSet_members _ _ _ sb hsb with hv | hold
              · -- the freshly updated book
                have hbk : queueSeqLe st.seq
                    ((alistGet? (strTrim req.symbol) st.books).getD
                      OrderBook.empty).bids ∧
                    queueSeqLe st.seq
                      ((alistGet? (strTrim req.symbol) st.books).getD
                        OrderBook.empty).asks := by
                  cases hg : alistGet? (strTrim req.symbol) st.books with
                  | none =>
                    simp [hg, OrderBook.empty, queueSeqLe]
                  | some bk =>
                    have := ih (strTrim req.symbol, bk) (alistGet?_mem _ _ _ hg)
                    simpa [hg] using this
                have := add_queueSeqLe
                  ((alistGet? (strTrim req.symbol) st.books).getD OrderBook.empty)
                  { seq := st.seq + 1
                    side := if req.side = SIDE_BUY then Side.Buy else Side.Sell
                    price := req.price, qty := req.qty
                    client_order_id := strTrim req.client_order_id }
                  (st.seq + 1)
                  (queueSeqLe_mono _ _ _ hbk.1 (Nat.le_succ _))
                  (queueSeqLe_mono _ _ _ hbk.2 (Nat.le_succ _)) (le_refl _)
                rw [hv]
                exact this
              · have := ih sb hold
                exact ⟨queueSeqLe_mono _ _ _ this.1 (Nat.le_succ _),
                  queueSeqLe_mono _ _ _ this.2 (Nat.le_succ _)⟩
            · simp only [hs, hq, hp, hd, hw]
              simpa [hs, hq, hp, hd, hw] using ih

/-- Fills of one `add` call: `taker_seq` is the incoming order's seq and
`maker_seq` is the seq of a resting order of the pre-call book. -/
theorem add_fills_taker_maker (b : OrderBook) (o : Order) :
    ∀ f ∈ (OrderBook.add b o).1, f.taker_seq = o.seq ∧
      ∃ l ∈ oppositeLevels b o.side, ∃ ro ∈ l.2, f.maker_seq = ro.seq := by
  intro f hf
  by_cases hq : o.qty ≤ 0
  · simp [OrderBook.add, addCore, hq] at hf
  · by_cases hp : o.price < 0
    · simp [OrderBook.add, addCore, hq, hp] at hf
    · cases hside : o.side with
      | Buy =>
        simp only [OrderBook.add, addCore, hside, if_neg hq, if_neg hp] at hf
        obtain ⟨l, hl, _, hts, ro, hro, hms⟩ :=
          sweep_fills (fun p => decide (p ≤ o.price)) o.seq o.qty b.asks f hf
        exact ⟨hts, l, by simpa [oppositeLevels, hside] using hl, ro, hro, hms⟩
      | Sell =>
        simp only [OrderBook.add, addCore, hside, if_neg hq, if_neg hp] at hf
        obtain ⟨l, hl, _, hts, ro, hro, hms⟩ :=
          sweep_fills (fun p => decide (o.price ≤ p)) o.seq o.qty
            b.bids.reverse f hf
        exact ⟨hts, l,
          by simpa [oppositeLevels, hside] using List.mem_reverse.mp hl,
          ro, hro, hms⟩

/-- C9: in any engine-reachable state, every fill returned by a
successful `submit_order` has `maker_seq < taker_seq`: the consumed
resting order necessarily carries a strictly smaller seq than the newly
assigned taker seq. -/
theorem maker_seq_lt_taker_seq (st : EngineState) (hreach : EngineReach st)
    (wal : List WalEntry) (req : SubmitOrderRequest) (s : Nat)
    (fs : List Fill) (hok : (submitOrder true st wal req).1 = .ok (s, fs)) :
    ∀ f ∈ fs, f.maker_seq < f.taker_seq := by
  have hbound := reach_stateSeqBound st hreach
  intro f hf
  simp only [submitOrder] at hok
  by_cases hs : (strTrim req.symbol).isEmpty
  · simp [hs] at hok
  · by_cases hq : req.qty ≤ 0
    · simp [hs, hq] at hok
    · by_cases hp : req.price < 0
      · simp [hs, hq, hp] at hok
      · by_cases hd : req.side = SIDE_UNSPECIFIED
        · simp [hs, hq, hp, hd] at hok
        · simp only [hs, hq, hp, hd, Bool.false_eq_true, if_false,
            not_true_eq_false, if_neg, if_true, Except.ok.injEq,
            Prod.mk.injEq] at hok
          obtain ⟨hseq, hfs⟩ := hok
          subst hfs
          obtain ⟨hts, l, hl, ro, hro, hms⟩ := add_fills_taker_maker _ _ f hf
          dsimp only at hts hl
          have hrole : ro.seq ≤ st.seq := by
            cases hg : alistGet? (strTrim req.symbol) st.books with
            | none =>
              rw [hg] at hl
              by_cases hbuy : req.side = SIDE_BUY <;>
                simp [oppositeLevels, OrderBook.empty, hbuy] at hl
            | some bk =>
              have hb := hbound (strTrim req.symbol, bk) (alistGet?_mem _ _ _ hg)
              rw [hg] at hl
              simp only [Option.getD_some] at hl
              by_cases hbuy : req.side = SIDE_BUY
              · simp only [hbuy, if_true, oppositeLevels] at hl
                exact hb.2 l hl ro hro
              · simp only [hbuy, if_false, oppositeLevels] at hl
                exact hb.1 l hl ro hro
          omega

/-- Witness for C9: on the engine state reached by submitting a resting
Sell (seq 1), a crossing Buy is assigned seq 2 and its fill satisfies
`maker_seq = 1 < 2 = taker_seq`. -/
theorem maker_seq_lt_taker_seq_witness :
    (Fill.mk 1 2 101 2).maker_seq < (Fill.mk 1 2 101 2).taker_seq :=
  maker_seq_lt_taker_seq
    (submitOrder true EngineState.default [] ⟨"X", 2, 101, 2, "m"⟩).2.1
    (EngineReach.step _ _ _ _ EngineReach.init) [] ⟨"X", 1, 101, 5, "t"⟩
    2 [Fill.mk 1 2 101 2] rfl (Fill.mk 1 2 101 2) (by decide)

/-! ## WAL replay (`wal.rs`, C1) -/

/-- `Wal::replay_wal_after_seq_into` from `wal.rs`: re-apply every WAL
entry with `seq > afterSeq` in line order via `OrderBook.add`, advancing
`state.seq` to each entry seq that exceeds it; an entry with an invalid
side string aborts the replay. -/
def replayWal (afterSeq : Nat) (st : EngineState) :
    List WalEntry → Except String EngineState
  | [] => .ok st
  | e :: rest =>
    if e.seq ≤ afterSeq then replayWal afterSeq st rest
    else
      let st1 := if st.seq < e.seq then { st with seq := e.seq } else st
      match (if e.side = "BUY" then some Side.Buy
             else if e.side = "SELL" then some Side.Sell else none) with
      | none => .error "invalid side"
      | some side =>
        let book := (alistGet? e.symbol st1.books).getD OrderBook.empty
        let r := book.add
          { seq := e.seq, side := side, price := e.price, qty := e.qty
            client_order_id := e.client_order_id }
        replayWal afterSeq
          { st1 with books := alistSet e.symbol r.2 st1.books } rest

/-- Driver for C1: apply a list of submits (all with a working WAL),
threading the engine state and WAL contents. -/
def runSubmits (st : EngineState) (wal : List WalEntry) :
    List SubmitOrderRequest → EngineState × List WalEntry
  | [] => (st, wal)
  | req :: rest =>
    let r := submitOrder true st wal req
    runSubmits r.2.1 r.2.2 rest

/-- A request that passes all of `submit_order`'s validations. -/
def ValidReq (req : SubmitOrderRequest) : Prop :=
  (strTrim req.symbol).isEmpty = false ∧ 0 < req.qty ∧ 0 ≤ req.price ∧
    req.side ≠ SIDE_UNSPECIFIED

theorem replayWal_append (after : Nat) (st s : EngineState)
    (l1 l2 : List WalEntry) (h : replayWal after st l1 = .ok s) :
    replayWal after st (l1 ++ l2) = replayWal after s l2 := by
  induction l1 generalizing st with
  | nil =>
    simp only [replayWal, Except.ok.injEq] at h
    subst h
    simp
  | cons e rest ih =>
    by_cases h1 : e.seq ≤ after
    · simp only [replayWal, if_pos h1] at h
      simpa [replayWal, h1] using ih _ h
    · by_cases hB : e.side = "BUY"
      · simp only [replayWal, if_neg h1, hB, reduceIte] at h ⊢
        exact ih _ h
      · by_cases hS : e.side = "SELL"
        · simp only [replayWal, if_neg h1, hB, hS, reduceIte] at h ⊢
          exact ih _ h
        · simp only [replayWal, if_neg h1, hB, hS, reduceIte] at h
          exact Except.noConfusion h

theorem replay_step (st st' : EngineState) (wal : List WalEntry)
    (req : SubmitOrderRequest) (hv : ValidReq req)
    (hseq : st'.seq = st.seq) (hbooks : st'.books = st.books) :
    (submitOrder true st wal req).2.2 = wal ++
      [{ seq := st.seq + 1, symbol := strTrim req.symbol
         side := if req.side = SIDE_BUY then "BUY" else "SELL"
         price := req.price, qty := req.qty
         client_order_id := strTrim req.client_order_id }]
    ∧ ∃ st'',
      replayWal 0 st'
        [{ seq := st.seq + 1, symbol := strTrim req.symbol
           side := if req.side = SIDE_BUY then "BUY" else "SELL"
           price := req.price, qty := req.qty
           client_order_id := strTrim req.client_order_id }] = .ok st''
      ∧ st''.seq = (submitOrder true st wal req).2.1.seq
      ∧ st''.books = (submitOrder true st wal req).2.1.books := by
  obtain ⟨hs, hq, hp, hd⟩ := hv
  have hq' : ¬ req.qty ≤ 0 := by omega
  have hp' : ¬ req.price < 0 := by omega
  have h0 : ¬ (st.seq + 1 ≤ 0) := by omega
  have h1 : st'.seq < st.seq + 1 := by omega
  constructor
  · simp [submitOrder, hs, hq', hp', hd]
  · by_cases hbuy : req.side = SIDE_BUY
    · refine ⟨{ seq := st.seq + 1
                books := alistSet (strTrim req.symbol)
                  (((alistGet? (strTrim req.symbol) st'.books).getD
                      OrderBook.empty).add
                    { seq := st.seq + 1, side := Side.Buy
                      price := req.price, qty := req.qty
                      client_order_id := strTrim req.client_order_id }).2
                  st'.books
                next_trade_id := st'.next_trade_id
                trades := st'.trades }, ?_, ?_, ?_⟩
      · simp [replayWal, h0, h1, hbuy]
      · simp [submitOrder, hs, hq', hp', hd]
      · have hbd : SIDE_BUY ≠ SIDE_UNSPECIFIED := by decide
        simp [submitOrder, hs, hq', hp', hd, hbooks, hbuy, hbd]
    · refine ⟨{ seq := st.seq + 1
                books := alistSet (strTrim req.symbol)
                  (((alistGet? (strTrim req.symbol) st'.books).getD
                      OrderBook.empty).add
                    { seq := st.seq + 1, side := Side.Sell
                      price := req.price, qty := req.qty
                      client_order_id := strTrim req.client_order_id }).2
                  st'.books
                next_trade_id := st'.next_trade_id
                trades := st'.trades }, ?_, ?_, ?_⟩
      · simp [replayWal, h0, h1, hbuy]
      · simp [submitOrder, hs, hq', hp', hd]
      · simp [submitOrder, hs, hq', hp', hd, hbooks, hbuy]

theorem runSubmits_replay (reqs : List SubmitOrderRequest) :
    ∀ (st : EngineState) (wal : List WalEntry) (st' : EngineState),
      (∀ r ∈ reqs, ValidReq r) →
      replayWal 0 EngineState.default wal = .ok st' →
      st'.seq = st.seq → st'.books = st.books →
      ∃ st'', replayWal 0 EngineState.default (runSubmits st wal reqs).2 =
          .ok st''
        ∧ st''.seq = (runSubmits st wal reqs).1.seq
        ∧ st''.books = (runSubmits st wal reqs).1.books := by
  induction reqs with
  | nil =>
    intro st wal st' _ hrep hseq hbooks
    exact ⟨st', by simpa [runSubmits] using hrep,
      by simpa [runSubmits] using hseq, by simpa [runSubmits] using hbooks⟩
  | cons req rest ih =>
    intro st wal st' hv hrep hseq hbooks
    obtain ⟨hwal, st1, hrep1, hseq1, hbooks1⟩ :=
      replay_step st st' wal req (hv req (List.mem_cons_self _ _)) hseq hbooks
    have hrep2 : replayWal 0 EngineState.default
        (submitOrder true st wal req).2.2 = .ok st1 := by
      rw [hwal]
      rw [replayWal_append 0 EngineState.default st' wal _ hrep]
      exact hrep1
    simp only [runSubmits]
    exact ih (submitOrder true st wal req).2.1 (submitOrder true st wal req).2.2
      st1 (fun r hr => hv r (List.mem_cons_of_mem _ hr)) hrep2 hseq1 hbooks1

/-- C1: run any sequence of accepted submits from a fresh engine, crash
without a snapshot, and restore by replaying the WAL from seq 0 into a
fresh state: the replayed state has exactly the seq counter and the
per-symbol books of the non-crashing run (the trade tape is not part of
the equivalence). -/
theorem replay_equivalence (reqs : List SubmitOrderRequest)
    (hv : ∀ r ∈ reqs, ValidReq r) :
    ∃ st'', replayWal 0 EngineState.default
        (runSubmits EngineState.default [] reqs).2 = .ok st''
      ∧ st''.seq = (runSubmits EngineState.default [] reqs).1.seq
      ∧ st''.books = (runSubmits EngineState.default [] reqs).1.books :=
  runSubmits_replay reqs EngineState.default [] EngineState.default hv rfl
    rfl rfl

/-- Witness for C1: the three-submit scenario (two resting sells swept by
a buy) replays from its WAL to the same seq and books. -/
theorem replay_equivalence_witness :
    ∃ st'', replayWal 0 EngineState.default
        (runSubmits EngineState.default []
          [⟨"X", 2, 101, 4, "a"⟩, ⟨"X", 2, 102, 2, "b"⟩,
           ⟨"X", 1, 102, 5, "c"⟩]).2 = .ok st''
      ∧ st''.seq = (runSubmits EngineState.default []
          [⟨"X", 2, 101, 4, "a"⟩, ⟨"X", 2, 102, 2, "b"⟩,
           ⟨"X", 1, 102, 5, "c"⟩]).1.seq
      ∧ st''.books = (runSubmits EngineState.default []
          [⟨"X", 2, 101, 4, "a"⟩, ⟨"X", 2, 102, 2, "b"⟩,
           ⟨"X", 1, 102, 5, "c"⟩]).1.books :=
  replay_equivalence
    [⟨"X", 2, 101, 4, "a"⟩, ⟨"X", 2, 102, 2, "b"⟩, ⟨"X", 1, 102, 5, "c"⟩]
    (by
      intro r hr
      fin_cases hr <;> exact ⟨rfl, by decide, by decide, by decide⟩)

/-! ## Snapshot round trip (`wal.rs`, C6) -/

/-- `SnapshotBook` from `wal.rs`. -/
structure SnapshotBook where
  symbol : String
  bids : List Order
  asks : List Order
deriving DecidableEq, Repr

/-- `Snapshot` from `wal.rs`. -/
structure Snapshot where
  seq : Nat
  books : List SnapshotBook
deriving DecidableEq, Repr

/-- The `Order`-shaped record `flatten_side` emits for a resting order
(`qty` carries `remaining_qty`). -/
def orderOfResting (ro : RestingOrder) : Order :=
  { seq := ro.seq, side := ro.side, price := ro.price
    qty := ro.remaining_qty, client_order_id := ro.client_order_id }

/-- `flatten_side` from `wal.rs`: ascending price levels, FIFO within
each level. -/
def flatten_side : List Level → List Order
  | [] => []
  | (_, q) :: rest => q.map orderOfResting ++ flatten_side rest

/-- The snapshot `Wal::write_snapshot` serializes for a given state. -/
def buildSnapshot (st : EngineState) : Snapshot :=
  { seq := st.seq
    books := st.books.map (fun sb =>
      { symbol := sb.1, bids := flatten_side sb.2.bids
        asks := flatten_side sb.2.asks }) }

/-- The per-side rebuild loop of `apply_snapshot`:
`book.side.entry(o.price).or_insert_with(VecDeque::new).push_back(o.into())`
over the serialized orders in list order, starting from an empty map. -/
def rebuildSide (os : List Order) : List Level :=
  os.foldl (fun ls o => insertLevel o.price (RestingOrder.ofOrder o) ls) []

/-- The book-insertion loop of `apply_snapshot` over `snap.books`. -/
def applySnapshotBooks :
    List SnapshotBook → List (String × OrderBook) → List (String × OrderBook)
  | [], books => books
  | b :: rest, books =>
    applySnapshotBooks rest
      (alistSet b.symbol ⟨rebuildSide b.bids, rebuildSide b.asks⟩ books)

/-- `apply_snapshot` from `wal.rs`: set `seq`, clear the books, and
rebuild each snapshot book. -/
def applySnapshot (st : EngineState) (snap : Snapshot) : EngineState :=
  { st with seq := snap.seq, books := applySnapshotBooks snap.books [] }

/-- A structurally well-formed book side: levels strictly ascending in
price, no empty queue, and each resting order's `price` field equal to
its level key.  `OrderBook.add` only ever produces such sides. -/
def WFSide (ls : List Level) : Prop :=
  sortedSide ls ∧ ∀ l ∈ ls, l.2 ≠ [] ∧ ∀ ro ∈ l.2, ro.price = l.1

/-- Both sides well-formed. -/
def WFBook (b : OrderBook) : Prop := WFSide b.bids ∧ WFSide b.asks

theorem ofOrder_orderOfResting (ro : RestingOrder) :
    RestingOrder.ofOrder (orderOfResting ro) = ro := rfl

theorem rebuild_queue (p : Int) (q : List RestingOrder) (acc : List RestingOrder)
    (hq : ∀ ro ∈ q, ro.price = p) :
    List.foldl (fun ls o => insertLevel o.price (RestingOrder.ofOrder o) ls)
      [(p, acc)] (q.map orderOfResting) = [(p, acc ++ q)] := by
  induction q generalizing acc with
  | nil => simp
  | cons r q' ih =>
    have hr : r.price = p := hq r (List.mem_cons_self _ _)
    simp only [List.map_cons, List.foldl_cons, ofOrder_orderOfResting]
    have hstep : insertLevel (orderOfResting r).price r [(p, acc)] =
        [(p, acc ++ [r])] := by
      simp [insertLevel, orderOfResting, hr]
    rw [hstep, ih (acc ++ [r]) (fun ro hro => hq ro (List.mem_cons_of_mem _ hro))]
    simp

theorem rebuild_skip (p : Int) (q : List RestingOrder) (ls : List Level)
    (os : List Order) (hos : ∀ o ∈ os, p < o.price) :
    List.foldl (fun ls o => insertLevel o.price (RestingOrder.ofOrder o) ls)
      ((p, q) :: ls) os =
    (p, q) :: List.foldl
      (fun ls o => insertLevel o.price (RestingOrder.ofOrder o) ls) ls os := by
  induction os generalizing ls with
  | nil => rfl
  | cons o os' ih =>
    have hlt : p < o.price := hos o (List.mem_cons_self _ _)
    simp only [List.foldl_cons]
    have hstep : insertLevel o.price (RestingOrder.ofOrder o) ((p, q) :: ls) =
        (p, q) :: insertLevel o.price (RestingOrder.ofOrder o) ls := by
      have h1 : ¬ o.price < p := by omega
      have h2 : ¬ o.price = p := by omega
      simp [insertLevel, h1, h2]
    rw [hstep]
    exact ih _ (fun o' ho' => hos o' (List.mem_cons_of_mem _ ho'))

theorem flatten_side_mem (ls : List Level) :
    ∀ o ∈ flatten_side ls, ∃ l ∈ ls, ∃ ro ∈ l.2, o = orderOfResting ro := by
  induction ls with
  | nil => simp [flatten_side]
  | cons l rest ih =>
    obtain ⟨p, q⟩ := l
    intro o ho
    simp only [flatten_side, List.mem_append, List.mem_map] at ho
    rcases ho with ⟨ro, hro, rfl⟩ | ho
    · exact ⟨(p, q), List.mem_cons_self _ _, ro, hro, rfl⟩
    · obtain ⟨l, hl, ro, hro, heq⟩ := ih o ho
      exact ⟨l, List.mem_cons_of_mem _ hl, ro, hro, heq⟩

theorem rebuild_flatten (ls : List Level) (hwf : WFSide ls) :
    rebuildSide (flatten_side ls) = ls := by
  obtain ⟨hsort, hlv⟩ := hwf
  induction ls with
  | nil => rfl
  | cons l rest ih =>
    obtain ⟨p, q⟩ := l
    have hqne : q ≠ [] := (hlv (p, q) (List.mem_cons_self _ _)).1
    have hqp : ∀ ro ∈ q, ro.price = p :=
      (hlv (p, q) (List.mem_cons_self _ _)).2
    simp only [sortedSide, List.map_cons, List.pairwise_cons] at hsort
    have ihr : rebuildSide (flatten_side rest) = rest :=
      ih hsort.2 (fun l hl => hlv l (List.mem_cons_of_mem _ hl))
    clear ih
    obtain ⟨r0, q', rfl⟩ := List.exists_cons_of_ne_nil hqne
    have hfirst : List.foldl
        (fun ls o => insertLevel o.price (RestingOrder.ofOrder o) ls)
        [] ((r0 :: q').map orderOfResting) = [(p, r0 :: q')] := by
      simp only [List.map_cons, List.foldl_cons, ofOrder_orderOfResting]
      have hr0 : r0.price = p := hqp r0 (List.mem_cons_self _ _)
      have hstep : insertLevel (orderOfResting r0).price r0 [] =
          [(p, [r0])] := by
        simp [insertLevel, orderOfResting, hr0]
      rw [hstep,
        rebuild_queue p q' [r0] (fun ro hro => hqp ro (List.mem_cons_of_mem _ hro))]
      simp
    have hrest : ∀ o ∈ flatten_side rest, p < o.price := by
      intro o ho
      obtain ⟨l, hl, ro, hro, rfl⟩ := flatten_side_mem rest o ho
      have h1 : ro.price = l.1 := (hlv l (List.mem_cons_of_mem _ hl)).2 ro hro
      have h2 : p < l.1 := hsort.1 l.1 (List.mem_map_of_mem Prod.fst hl)
      simpa [orderOfResting, h1] using h2
    show List.foldl _ [] (flatten_side ((p, r0 :: q') :: rest)) = _
    rw [show flatten_side ((p, r0 :: q') :: rest) =
      (r0 :: q').map orderOfResting ++ flatten_side rest from rfl]
    rw [List.foldl_append, hfirst, rebuild_skip p (r0 :: q') [] _ hrest]
    exact congrArg _ ihr

theorem alistSet_absent {β : Type} (k : String) (v : β)
    (m : List (String × β)) (h : k ∉ m.map Prod.fst) :
    alistSet k v m = m ++ [(k, v)] := by
  induction m with
  | nil => rfl
  | cons a rest ih =>
    simp only [List.map_cons, List.mem_cons, not_or] at h
    have : ¬ a.1 = k := fun hk => h.1 hk.symm
    simp only [alistSet, if_neg this, List.cons_append]
    exact congrArg _ (ih h.2)

theorem applySnapshotBooks_acc (bs : List SnapshotBook) :
    ∀ acc, (∀ b ∈ bs, b.symbol ∉ acc.map Prod.fst) →
      (bs.map SnapshotBook.symbol).Nodup →
      applySnapshotBooks bs acc = acc ++ bs.map (fun b =>
        (b.symbol, (⟨rebuildSide b.bids, rebuildSide b.asks⟩ : OrderBook))) := by
  induction bs with
  | nil => intro acc _ _; simp [applySnapshotBooks]
  | cons b rest ih =>
    intro acc hacc hnd
    rw [List.map_cons, List.nodup_cons] at hnd
    simp only [applySnapshotBooks]
    rw [alistSet_absent _ _ _ (hacc b (List.mem_cons_self _ _))]
    rw [ih _ ?_ hnd.2]
    · simp
    · intro b' hb'
      simp only [List.map_append, List.mem_append, List.map_cons,
        List.map_nil, List.mem_singleton, not_or]
      refine ⟨fun hc => hacc b' (List.mem_cons_of_mem _ hb') hc, fun hc => ?_⟩
      exact hnd.1 (hc ▸ List.mem_map_of_mem SnapshotBook.symbol hb')

/-- Round trip for any state whose books satisfy the structural
invariants `OrderBook.add` maintains and whose symbols are distinct. -/
theorem snapshot_roundtrip_wf (st : EngineState)
    (hwf : ∀ sb ∈ st.books, WFBook sb.2)
    (hnd : (st.books.map Prod.fst).Nodup) :
    (applySnapshot EngineState.default (buildSnapshot st)).seq = st.seq
    ∧ (applySnapshot EngineState.default (buildSnapshot st)).books = st.books
    ∧ ∀ sym, alistGet? sym
        (applySnapshot EngineState.default (buildSnapshot st)).books =
        alistGet? sym st.books := by
  have hbooks : (applySnapshot EngineState.default (buildSnapshot st)).books =
      st.books := by
    simp only [applySnapshot, buildSnapshot]
    rw [applySnapshotBooks_acc _ [] (by simp) ?_]
    · rw [List.nil_append, List.map_map]
      have : ∀ sb ∈ st.books, ((fun b =>
          (b.symbol, (⟨rebuildSide b.bids, rebuildSide b.asks⟩ : OrderBook))) ∘
          (fun sb : String × OrderBook =>
            ({ symbol := sb.1, bids := flatten_side sb.2.bids
               asks := flatten_side sb.2.asks } : SnapshotBook))) sb = sb := by
        intro sb hsb
        obtain ⟨hwb, hwa⟩ := hwf sb hsb
        simp only [Function.comp_apply]
        rw [rebuild_flatten _ hwb, rebuild_flatten _ hwa]
      rw [List.map_congr_left this]
      simp
    · rw [List.map_map]
      have : (st.books.map (SnapshotBook.symbol ∘ (fun sb : String × OrderBook =>
          ({ symbol := sb.1, bids := flatten_side sb.2.bids
             asks := flatten_side sb.2.asks } : SnapshotBook)))) =
          st.books.map Prod.fst := by
        apply List.map_congr_left
        intro sb _
        rfl
      rw [this]
      exact hnd
  exact ⟨rfl, hbooks, fun sym => by rw [hbooks]⟩

/-! ### Every engine-reachable state is structurally well-formed -/

/-- Every level's queue is non-empty and every resting order's `price`
field equals its level key. -/
def QueuesOK (ls : List Level) : Prop :=
  ∀ l ∈ ls, l.2 ≠ [] ∧ ∀ ro ∈ l.2, ro.price = l.1

theorem matchQueue_queue_price (ts : Nat) (p : Int) (rem : Int)
    (q : List RestingOrder) :
    ∀ ro' ∈ (matchQueue ts p rem q).2.2, ∃ ro ∈ q, ro'.price = ro.price := by
  induction q generalizing rem with
  | nil => simp [matchQueue]
  | cons front rest ih =>
    intro ro' hro'
    by_cases h1 : rem ≤ 0
    · simp only [matchQueue, if_pos h1] at hro'
      exact ⟨ro', hro', rfl⟩
    · by_cases h2 : front.remaining_qty ≤ 0
      · simp only [matchQueue, if_neg h1, if_pos h2] at hro'
        obtain ⟨ro, hro, hp⟩ := ih rem ro' hro'
        exact ⟨ro, List.mem_cons_of_mem _ hro, hp⟩
      · by_cases h3 : front.remaining_qty ≤ rem
        · simp only [matchQueue, if_neg h1, if_neg h2, if_pos h3] at hro'
          obtain ⟨ro, hro, hp⟩ := ih _ ro' hro'
          exact ⟨ro, List.mem_cons_of_mem _ hro, hp⟩
        · simp only [matchQueue, if_neg h1, if_neg h2, if_neg h3,
            List.mem_cons] at hro'
          rcases hro' with rfl | hro'
          · exact ⟨front, List.mem_cons_self _ _, rfl⟩
          · exact ⟨ro', List.mem_cons_of_mem _ hro', rfl⟩

theorem sweep_queuesOK (c : Int → Bool) (ts : Nat) (rem : Int)
    (ls : List Level) (h : QueuesOK ls) :
    QueuesOK ((sweep c ts rem ls).2.2) := by
  induction ls generalizing rem with
  | nil => simpa [sweep] using h
  | cons l rest ih =>
    obtain ⟨p, q⟩ := l
    have hrest : QueuesOK rest := fun l hl => h l (List.mem_cons_of_mem _ hl)
    by_cases h1 : rem ≤ 0
    · simpa [sweep, h1] using h
    · by_cases h2 : c p
      · by_cases h3 : (matchQueue ts p rem q).2.2.isEmpty
        · simp only [sweep, if_neg h1, h2, not_true_eq_false, if_false,
            if_pos h3]
          exact ih _ hrest
        · simp only [sweep, if_neg h1, h2, not_true_eq_false, if_false,
            if_neg h3]
          intro l hl
          rcases List.mem_cons.mp hl with rfl | hl'
          · refine ⟨by simpa [List.isEmpty_iff] using h3, ?_⟩
            intro ro' hro'
            obtain ⟨ro, hro, hp⟩ := matchQueue_queue_price ts p rem q ro' hro'
            rw [hp]
            exact (h (p, q) (List.mem_cons_self _ _)).2 ro hro
          · exact hrest l hl'
      · simpa [sweep, h1, h2] using h

theorem insertLevel_queuesOK (p : Int) (ro : RestingOrder) (ls : List Level)
    (hro : ro.price = p) (h : QueuesOK ls) :
    QueuesOK (insertLevel p ro ls) := by
  induction ls with
  | nil =>
    intro l hl
    simp only [insertLevel, List.mem_singleton] at hl
    subst hl
    exact ⟨by simp, by simpa using hro⟩
  | cons a rest ih =>
    obtain ⟨ap, aq⟩ := a
    have hrest : QueuesOK rest := fun l hl => h l (List.mem_cons_of_mem _ hl)
    intro l hl
    by_cases h1 : p < ap
    · simp only [insertLevel, if_pos h1, List.mem_cons] at hl
      rcases hl with rfl | hl
      · exact ⟨by simp, by simpa using hro⟩
      · exact h l (List.mem_cons.mpr hl)
    · by_cases h2 : p = ap
      · simp only [insertLevel, if_neg h1, if_pos h2, List.mem_cons] at hl
        rcases hl with rfl | hl
        · refine ⟨by simp, ?_⟩
          intro ro' hro'
          rcases List.mem_append.mp hro' with hro' | hro'
          · exact (h (ap, aq) (List.mem_cons_self _ _)).2 ro' hro'
          · simp only [List.mem_singleton] at hro'
            subst hro'
            simpa [h2] using hro
        · exact h l (List.mem_cons_of_mem _ hl)
      · simp only [insertLevel, if_neg h1, if_neg h2, List.mem_cons] at hl
        rcases hl with rfl | hl
        · exact h (ap, aq) (List.mem_cons_self _ _)
        · exact ih hrest l hl

theorem queuesOK_reverse (ls : List Level) (h : QueuesOK ls) :
    QueuesOK ls.reverse :=
  fun l hl => h l (List.mem_reverse.mp hl)

theorem add_queuesOK (b : OrderBook) (o : Order)
    (hb : QueuesOK b.bids) (ha : QueuesOK b.asks) :
    QueuesOK (OrderBook.add b o).2.bids ∧
      QueuesOK (OrderBook.add b o).2.asks := by
  by_cases hq : o.qty ≤ 0
  · simp only [OrderBook.add, addCore, if_pos hq]
    exact ⟨hb, ha⟩
  · by_cases hp : o.price < 0
    · simp only [OrderBook.add, addCore, if_neg hq, if_pos hp]
      exact ⟨hb, ha⟩
    · cases hside : o.side with
      | Buy =>
        simp only [OrderBook.add, addCore, hside, if_neg hq, if_neg hp]
        refine ⟨?_, sweep_queuesOK _ o.seq o.qty b.asks ha⟩
        by_cases hrem :
            0 < (sweep (fun p => decide (p ≤ o.price)) o.seq o.qty b.asks).2.1
        · rw [if_pos hrem]
          exact insertLevel_queuesOK _ _ _ rfl hb
        · rw [if_neg hrem]; exact hb
      | Sell =>
        simp only [OrderBook.add, addCore, hside, if_neg hq, if_neg hp]
        constructor
        · exact queuesOK_reverse _
            (sweep_queuesOK _ o.seq o.qty b.bids.reverse
              (queuesOK_reverse _ hb))
        · by_cases hrem :
            0 < (sweep (fun p => decide (o.price ≤ p)) o.seq o.qty
              b.bids.reverse).2.1
          · rw [if_pos hrem]
            exact insertLevel_queuesOK _ _ _ rfl ha
          · rw [if_neg hrem]; exact ha

theorem alistSet_keys_subset {β : Type} (k : String) (v : β)
    (m : List (String × β)) :
    ∀ x ∈ (alistSet k v m).map Prod.fst, x = k ∨ x ∈ m.map Prod.fst := by
  induction m with
  | nil => simp [alistSet]
  | cons a rest ih =>
    intro x hx
    by_cases h : a.1 = k
    · simp only [alistSet, if_pos h, List.map_cons, List.mem_cons] at hx ⊢
      tauto
    · simp only [alistSet, if_neg h, List.map_cons, List.mem_cons] at hx ⊢
      rcases hx with rfl | hx
      · tauto
      · rcases ih x hx with h' | h' <;> tauto

theorem alistSet_nodup {β : Type} (k : String) (v : β)
    (m : List (String × β)) (h : (m.map Prod.fst).Nodup) :
    ((alistSet k v m).map Prod.fst).Nodup := by
  induction m with
  | nil => simp [alistSet]
  | cons a rest ih =>
    rw [List.map_cons, List.nodup_cons] at h
    by_cases hk : a.1 = k
    · simp only [alistSet, if_pos hk, List.map_cons, List.nodup_cons]
      exact h
    · simp only [alistSet, if_neg hk, List.map_cons, List.nodup_cons]
      refine ⟨?_, ih h.2⟩
      intro hc
      rcases alistSet_keys_subset k v rest a.1 hc with h' | h'
      · exact hk h'
      · exact h.1 h'

/-- Structural well-formedness of a whole engine state: distinct book
symbols, and every book non-crossing, price-sorted, with non-empty
queues of correctly priced resting orders. -/
def stateWF (st : EngineState) : Prop :=
  (st.books.map Prod.fst).Nodup ∧
    ∀ sb ∈ st.books, BookInv sb.2 ∧ QueuesOK sb.2.bids ∧ QueuesOK sb.2.asks

theorem reach_stateWF (st : EngineState) (h : EngineReach st) : stateWF st := by
  induction h with
  | init =>
    exact ⟨by simp [EngineState.default], by simp [EngineState.default]⟩
  | step st wal w req _ ih =>
    simp only [submitOrder]
    by_cases hs : (strTrim req.symbol).isEmpty
    · simpa [hs] using ih
    · by_cases hq : req.qty ≤ 0
      · simpa [hs, hq] using ih
      · by_cases hp : req.price < 0
        · simpa [hs, hq, hp] using ih
        · by_cases hd : req.side = SIDE_UNSPECIFIED
          · simpa [hs, hq, hp, hd] using ih
          · by_cases hw : w
            · simp only [hs, hq, hp, hd, hw, Bool.false_eq_true, if_false,
                not_true_eq_false, if_neg, if_true]
              have hbk : BookInv ((alistGet? (strTrim req.symbol) st.books).getD
                    OrderBook.empty) ∧
                  QueuesOK ((alistGet? (strTrim req.symbol) st.books).getD
                    OrderBook.empty).bids ∧
                  QueuesOK ((alistGet? (strTrim req.symbol) st.books).getD
                    OrderBook.empty).asks := by
                cases hg : alistGet? (strTrim req.symbol) st.books with
                | none =>
                  refine ⟨⟨?_, ?_, ?_⟩, ?_, ?_⟩ <;>
                    simp [hg, OrderBook.empty, sortedSide, NonCrossing,
                      QueuesOK]
                | some bk =>
                  simpa [hg] using
                    ih.2 (strTrim req.symbol, bk) (alistGet?_mem _ _ _ hg)
              constructor
              · exact alistSet_nodup _ _ _ ih.1
              · intro sb hsb
                rcases alistSet_members _ _ _ sb hsb with hv | hold
                · rw [hv]
                  exact ⟨add_preserves_inv _ _ hbk.1,
                    (add_queuesOK _ _ hbk.2.1 hbk.2.2).1,
                    (add_queuesOK _ _ hbk.2.1 hbk.2.2).2⟩
                · exact ih.2 sb hold
            · simpa [hs, hq, hp, hd, hw] using ih

/-- C6: for every engine-reachable state, building a snapshot (ascending
price order, FIFO within each level, `qty` carrying `remaining_qty`) and
applying it into an empty state reproduces the original seq counter and
books, hence the original bids and asks maps of every symbol. -/
theorem snapshot_roundtrip (st : EngineState) (h : EngineReach st) :
    (applySnapshot EngineState.default (buildSnapshot st)).seq = st.seq
    ∧ (applySnapshot EngineState.default (buildSnapshot st)).books = st.books
    ∧ ∀ sym, alistGet? sym
        (applySnapshot EngineState.default (buildSnapshot st)).books =
        alistGet? sym st.books := by
  obtain ⟨hnd, hwf⟩ := reach_stateWF st h
  refine snapshot_roundtrip_wf st ?_ hnd
  intro sb hsb
  obtain ⟨hinv, hqb, hqa⟩ := hwf sb hsb
  exact ⟨⟨hinv.1, fun l hl => hqb l hl⟩, ⟨hinv.2.1, fun l hl => hqa l hl⟩⟩

/-- Witness for C6 at a concrete reachable state: the state after one
resting Sell submit snapshots and restores to the same seq and books. -/
theorem snapshot_roundtrip_witness :
    (applySnapshot EngineState.default (buildSnapshot
      (submitOrder true EngineState.default [] ⟨"X", 2, 102, 1, "b"⟩).2.1)).seq
      = (submitOrder true EngineState.default [] ⟨"X", 2, 102, 1, "b"⟩).2.1.seq
    ∧ (applySnapshot EngineState.default (buildSnapshot
        (submitOrder true EngineState.default [] ⟨"X", 2, 102, 1, "b"⟩).2.1)).books
      = (submitOrder true EngineState.default [] ⟨"X", 2, 102, 1, "b"⟩).2.1.books := by
  have h := snapshot_roundtrip
    (submitOrder true EngineState.default [] ⟨"X", 2, 102, 1, "b"⟩).2.1
    (EngineReach.step _ _ _ _ EngineReach.init)
  exact ⟨h.1, h.2.1⟩

end Engine
